import Mathlib

/-!
# Verification of the DHV bot resolution cascade (`src/bot.py`)

Shallow embedding of the core of `bot.py`: text normalization
(`normalize_text`), the `difflib.SequenceMatcher` similarity ratio used by
all fuzzy-matching call sites, the persistent fallback cache
(`save_to_local_fallback` / `get_local_fallback`), the knowledge-base
refresher backoff (`kb_auto_refresher` / `load_knowledge_base`), and the
resolver (`find_answer`).

Modelling conventions:
* Strings are `List Char` (`Str`).  Python's Unicode character classes
  (`str.isprintable`, `str.lower`, `\w`, `\s`) are modelled on their ASCII
  fragment, which is the fragment the program's comparisons exercise.
* Python floats are modelled as exact rationals (`ℚ`); at every comparison
  the program performs, the float and rational orderings agree (the scores
  are small dyadic-denominator rationals and `0.85` rounds identically on
  both sides of each comparison).
* The SQLite table created by `init_db` (whose `CREATE TABLE` statement is
  textually corrupted in the source but whose column list survives intact:
  `question TEXT UNIQUE, normalized_question TEXT, answer TEXT, timestamp`)
  is modelled as an insertion-ordered list of records with `INSERT OR
  REPLACE` conflicting on the `question` column only, and `SELECT ...
  fetchone()` returning the first row in insertion (rowid) order.
  The unused `timestamp` column is omitted.
* Fallible I/O is modelled with `Option`: a store-level failure is `none`
  and each caught exception path returns the value the `except` handler
  returns in the source.
-/

abbrev Str := List Char

/-! ## Character classes: ASCII fragment of the Python semantics -/

/-- `str.isprintable` per character, ASCII fragment: the printable ASCII
range `0x20`–`0x7e`. -/
def pyPrintable (c : Char) : Bool :=
  decide (0x20 ≤ c.toNat ∧ c.toNat ≤ 0x7e)

/-- Python `\s` (regex whitespace / `str.strip` default set), ASCII
fragment: space, tab, newline, carriage return, vertical tab, form feed. -/
def pySpace (c : Char) : Bool :=
  decide (c.toNat = 0x20 ∨ c.toNat = 0x9 ∨ c.toNat = 0xa ∨ c.toNat = 0xd ∨
          c.toNat = 0xb ∨ c.toNat = 0xc)

/-- Python `\w` (regex word character), ASCII fragment:
digits, upper/lower letters, underscore. -/
def pyWord (c : Char) : Bool :=
  decide ((0x30 ≤ c.toNat ∧ c.toNat ≤ 0x39) ∨ (0x41 ≤ c.toNat ∧ c.toNat ≤ 0x5a) ∨
          (0x61 ≤ c.toNat ∧ c.toNat ≤ 0x7a) ∨ c.toNat = 0x5f)

/-- `str.lower` per character, ASCII fragment: map `A`–`Z` to `a`–`z`. -/
def pyLower (c : Char) : Char :=
  if 0x41 ≤ c.toNat ∧ c.toNat ≤ 0x5a then Char.ofNat (c.toNat + 32) else c

/-- `str.lower` on a whole string. -/
def lowerStr (s : Str) : Str := s.map pyLower

/-- `str.strip()` : drop leading and trailing whitespace. -/
def pyStrip (s : Str) : Str :=
  ((s.dropWhile pySpace).reverse.dropWhile pySpace).reverse

/-! ## `normalize_text` (bot.py lines 297-308) -/

/-- `re.sub(r"\s+", " ", text)`, with a flag recording whether the
previous character belonged to a whitespace run: the first character of
each maximal whitespace run becomes a single space, the rest of the run
is dropped. -/
def collapseWsAux : Bool → Str → Str
  | _, [] => []
  | prevWs, c :: rest =>
    if pySpace c then
      if prevWs then collapseWsAux true rest
      else ' ' :: collapseWsAux true rest
    else c :: collapseWsAux false rest

/-- `re.sub(r"\s+", " ", text)` : collapse each maximal run of whitespace
characters into a single space. -/
def collapseWs (s : Str) : Str := collapseWsAux false s

/-- `normalize_text` from bot.py: keep printable characters, lowercase,
replace each non-word non-space character by a space, collapse whitespace
runs, strip. -/
def normalize_text (s : Str) : Str :=
  let s1 := s.filter pyPrintable
  let s2 := s1.map pyLower
  let s3 := s2.map (fun c => if ¬ (pyWord c ∨ pySpace c) then ' ' else c)
  pyStrip (collapseWs s3)

/-! ## `difflib.SequenceMatcher` similarity ratio

The program scores similarity with `SequenceMatcher(None, a, b).ratio()`
(bot.py lines 91, 223, 472).  `ratio` is `2*M/T` where `T` is the total
length and `M` the total size of the matching blocks: repeatedly take the
leftmost longest common contiguous block (maximal length `k`, then minimal
start in `a`, then minimal start in `b`) and recurse on the pieces to its
left and to its right.  Junk heuristics are off (`isjunk=None`); the
autojunk popularity heuristic, which only activates for a second string
of length ≥ 200, is modelled separately below (`ratioAuto`), and `ratio`
here is the heuristic-free core the two agree on below that length
(`ratioAuto_eq_ratio_short`). -/

/-- Length of the longest common prefix of two strings. -/
def cpl : Str → Str → Nat
  | a :: as, b :: bs => if a = b then cpl as bs + 1 else 0
  | _, _ => 0

/-- All index pairs `(i, j)` with `i < m`, `j < n`, in lexicographic order. -/
def idxPairs (m n : Nat) : List (Nat × Nat) :=
  (List.range m).flatMap (fun i => (List.range n).map (fun j => (i, j)))

/-- One step of the longest-match search: a candidate start pair `(i, j)`
improves the current best block only if its match is strictly longer. -/
def flmStep (a b : Str) (best : Nat × Nat × Nat) (p : Nat × Nat) : Nat × Nat × Nat :=
  let k := cpl (a.drop p.1) (b.drop p.2)
  if best.2.2 < k then (p.1, p.2, k) else best

/-- `find_longest_match` over the whole strings: the leftmost longest
matching block `(i, j, k)`, with `(0, 0, 0)` when there is no match. -/
def flm (a b : Str) : Nat × Nat × Nat :=
  (idxPairs a.length b.length).foldl (flmStep a b) (0, 0, 0)

/-- Total size of the matching blocks, fuelled recursion.  Each recursive
call is on strings whose first component is strictly shorter (a block of
size `k ≥ 1` starting at `i` forces `i < a.length` and
`a.length - (i + k) < a.length`), so fuel `a.length` never runs out. -/
def tmF : Nat → Str → Str → Nat
  | 0, _, _ => 0
  | fuel + 1, a, b =>
    let t := flm a b
    if t.2.2 = 0 then 0
    else tmF fuel (a.take t.1) (b.take t.2.1) + t.2.2 +
         tmF fuel (a.drop (t.1 + t.2.2)) (b.drop (t.2.1 + t.2.2))

/-- Total size of all matching blocks of `a` and `b`. -/
def totalMatch (a b : Str) : Nat := tmF a.length a b

/-- `SequenceMatcher(None, a, b).ratio()`, as an exact rational:
`2*M/T`, and `1` when both strings are empty (difflib's
`_calculate_ratio`).  Built with `mkRat` (the normalized-fraction
constructor) so that concrete instances evaluate in the kernel;
`ratio_eq_div` below certifies it equals the division `2*M/T` in `ℚ`. -/
def ratio (a b : Str) : ℚ :=
  if a.length + b.length = 0 then 1
  else mkRat (2 * totalMatch a b) (a.length + b.length)

/-- `SIMILARITY_THRESHOLD = 0.85` (bot.py line 28), as the exact rational
`17/20 = 0.85`. -/
def SIMILARITY_THRESHOLD : ℚ := mkRat 17 20

/-- `is_similar` (bot.py lines 221-223): lowercases both strings and
compares the ratio with the threshold using strict `>`. -/
def is_similar (a b : Str) : Bool :=
  decide (SIMILARITY_THRESHOLD < ratio (lowerStr a) (lowerStr b))

/-! ## `SequenceMatcher` with the autojunk heuristic

`SequenceMatcher(None, a, b)` has `autojunk=True`: when `len(b) ≥ 200`,
characters occurring more than `len(b)//100 + 1` times in `b` are
"popular" and are purged from the index `b2j`, so the dynamic-programming
phase of `find_longest_match` never matches them.  Its extension phase,
however, tests membership in `self.bjunk` only — the junk set, which is
empty for `isjunk=None` — NOT in `self.bpopular`, so after the DP phase
the best block is extended over every pair of equal characters (popular
ones included) adjacent to it on either side; with a zero-size DP result
the right-hand extension starts from the beginning of both ranges.
`ratioAuto` below models this faithfully (`ratio` above is the
no-autojunk core, which `ratioAuto_eq_ratio_short` proves equal to
`ratioAuto` whenever the second string is shorter than 200 characters —
every comparison the resolver claims' witnesses exercise). -/

/-- difflib's autojunk "popular" predicate for the second string `b`:
active only when `b` has at least 200 characters, and then holding of
the characters with more than `len(b)/100 + 1` occurrences in `b`. -/
def popularB (b : Str) (c : Char) : Bool :=
  decide (200 ≤ b.length) && decide (b.length / 100 + 1 < b.count c)

/-- Longest common prefix restricted to positions whose second-string
character is not purged: the run length the autojunk DP phase can build
from a given pair of starts. -/
def cplP (P : Char → Bool) : Str → Str → Nat
  | x :: xs, y :: ys => if x = y ∧ P y = false then cplP P xs ys + 1 else 0
  | _, _ => 0

/-- One step of the DP-phase longest-match search under purging `P`. -/
def flmStepA (P : Char → Bool) (a b : Str) (best : Nat × Nat × Nat) (p : Nat × Nat) :
    Nat × Nat × Nat :=
  let k := cplP P (a.drop p.1) (b.drop p.2)
  if best.2.2 < k then (p.1, p.2, k) else best

/-- DP phase of `find_longest_match` under purging `P`: the leftmost
longest block all of whose second-string characters are unpurged. -/
def coreFlm (P : Char → Bool) (a b : Str) : Nat × Nat × Nat :=
  (idxPairs a.length b.length).foldl (flmStepA P a b) (0, 0, 0)

/-- `find_longest_match` with autojunk: the DP-phase block, extended on
both sides over equal characters with no purging constraint (the
extension loops test only the empty junk set).  With a zero-size DP
block the left extension cannot run and the right extension is the plain
common prefix of the two ranges, which the uniform formula yields. -/
def flmAuto (P : Char → Bool) (a b : Str) : Nat × Nat × Nat :=
  let c := coreFlm P a b
  let l := cpl (a.take c.1).reverse (b.take c.2.1).reverse
  let r := cpl (a.drop (c.1 + c.2.2)) (b.drop (c.2.1 + c.2.2))
  (c.1 - l, c.2.1 - l, l + c.2.2 + r)

/-- Total matching size under autojunk, fuelled recursion (the same fuel
argument as `tmF`: a block of size `≥ 1` strictly shrinks the first
string, so fuel `a.length` never runs out).  The purge set is computed
once from the full second string and shared by all recursive calls, as
in difflib's `__chain_b`. -/
def tmFAuto (P : Char → Bool) : Nat → Str → Str → Nat
  | 0, _, _ => 0
  | fuel + 1, a, b =>
    let t := flmAuto P a b
    if t.2.2 = 0 then 0
    else tmFAuto P fuel (a.take t.1) (b.take t.2.1) + t.2.2 +
         tmFAuto P fuel (a.drop (t.1 + t.2.2)) (b.drop (t.2.1 + t.2.2))

/-- Total size of all matching blocks of `a` and `b` under autojunk. -/
def totalMatchAuto (a b : Str) : Nat := tmFAuto (popularB b) a.length a b

/-- `SequenceMatcher(None, a, b).ratio()` with the autojunk heuristic
modelled, as an exact rational (validated against CPython difflib on
exhaustive short inputs and randomized autojunk-active inputs). -/
def ratioAuto (a b : Str) : ℚ :=
  if a.length + b.length = 0 then 1
  else mkRat (2 * totalMatchAuto a b) (a.length + b.length)

/-! ## Fallback cache (`init_db`, `save_to_local_fallback`,
`get_local_fallback`, bot.py lines 40-127)

The table's surviving column list is `question TEXT UNIQUE,
normalized_question TEXT, answer TEXT, timestamp DATETIME ...`: the only
uniqueness constraint is on the raw `question`.  `INSERT OR REPLACE`
therefore replaces an existing row exactly when its `question` equals the
new one, and appends (at the largest rowid) otherwise; `SELECT ...
fetchone()` yields the first row in rowid (insertion) order. -/

structure CacheRecord where
  question : Str
  normalized_question : Str
  answer : Str
deriving DecidableEq

/-- The fallback store: `none` models a store-level I/O failure (every
operation on it is caught in the source and degrades to a no-op / absent);
`some rows` is the table content in rowid order. -/
abbrev FallbackDB := Option (List CacheRecord)

/-- `save_to_local_fallback`: no-op on empty normalized question or empty
answer; otherwise `INSERT OR REPLACE` keyed by the raw `question`. -/
def save_to_local_fallback (db : FallbackDB) (question answer : Str) : FallbackDB :=
  let nq := normalize_text question
  if nq = [] ∨ answer = [] then db
  else
    match db with
    | none => none
    | some rows =>
        some (rows.filter (fun r => decide (r.question ≠ question)) ++
              [⟨question, nq, answer⟩])

/-- `get_local_fallback`: absent on empty normalized input or store
failure; else first an exact match on `normalized_question`, else a fuzzy
scan keeping the best strictly-improving score, accepted with `>=`. -/
def get_local_fallback (db : FallbackDB) (question : Str) : Option Str :=
  let nq := normalize_text question
  if nq = [] then none
  else
    match db with
    | none => none
    | some rows =>
      match rows.find? (fun r => decide (r.normalized_question = nq)) with
      | some r => some r.answer
      | none =>
        let best := rows.foldl (fun acc r =>
          let score := ratio nq r.normalized_question
          if acc.1 < score then (score, some r.answer) else acc)
          ((0 : ℚ), (none : Option Str))
        if SIMILARITY_THRESHOLD ≤ best.1 then best.2 else none

/-! ## Knowledge store and refresher (bot.py lines 133-207) -/

structure KBEntry where
  Question : Str
  Response : Str
  Category : Str
  Tags : Str
  Status : Str
deriving DecidableEq

/-- State owned by the refresher: the snapshot list and `kb_last_loaded`. -/
structure KBState where
  snapshot : List KBEntry
  loadedAt : Nat
deriving DecidableEq

/-- Outcome of one fetch/parse attempt in `load_knowledge_base`.  The CSV
row-parsing block (source lines 144-170, textually corrupted in the
source) either produces a parsed entry list (`ok`) or raises, which the
enclosing handler turns into `parseError`; the other three constructors
are the explicit failure paths of the source. -/
inductive FetchOutcome where
  | timeout
  | netError
  | emptyBody
  | parseError
  | ok (entries : List KBEntry)
deriving DecidableEq

/-- `load_knowledge_base`: on success, replace the snapshot wholesale and
record the load time, returning `true`; on every failure path, return
`false` leaving the state untouched. -/
def load_knowledge_base (out : FetchOutcome) (now : Nat) (st : KBState) : Bool × KBState :=
  match out with
  | .ok entries => (true, ⟨entries, now⟩)
  | _ => (false, st)

def KB_REFRESH_INTERVAL : Nat := 300

/-- One iteration of `kb_auto_refresher`, given the current
`failure_count` and whether `load_knowledge_base` succeeded: returns the
sleep duration and the new `failure_count`. -/
def refresherStep (failureCount : Nat) (success : Bool) : Nat × Nat :=
  if success then (KB_REFRESH_INTERVAL, 0)
  else (min (60 * 2 ^ (failureCount + 1)) 1000, failureCount + 1)

/-- Sleep durations produced by a run of the refresher loop over a
sequence of tick outcomes. -/
def refresherDelays : Nat → List Bool → List Nat
  | _, [] => []
  | fc, s :: rest =>
    let r := refresherStep fc s
    r.1 :: refresherDelays r.2 rest

/-! ## Resolver (`find_answer`, bot.py lines 438-503) -/

/-- A resolution outcome: the answer, the provenance tier string the
source returns (`"sheet"`, `"local"`, `"groq"`, `"openai"`,
`"anthropic"`), and the fallback store after any provider write-back. -/
structure Resolution where
  answer : Option Str
  tier : Option String
  db : FallbackDB
deriving DecidableEq

/-- Step 1 of `find_answer`: scan the snapshot in order for the first
entry whose stripped, lowercased question equals the stripped, lowercased
input (when the snapshot is empty the source only logs a warning). -/
def rawExactScan (kb : List KBEntry) (q : Str) : Option Str :=
  (kb.find? (fun e => decide (lowerStr (pyStrip e.Question) = lowerStr (pyStrip q)))).map
    KBEntry.Response

/-- Result of the step-2 scan loop: either an early return (`hit`) on a
normalized-equality or substring containment, or the final best fuzzy
score and best entry. -/
inductive ScanOut where
  | hit (response : Str)
  | done (bestScore : ℚ) (bestMatch : Option KBEntry)
deriving DecidableEq

/-- Step 2 scan of `find_answer`: skip entries with empty normalized
question; return immediately on normalized equality or substring
containment (either direction); otherwise keep the best
strictly-improving similarity score. -/
def fuzzyScan (nq : Str) : List KBEntry → ℚ → Option KBEntry → ScanOut
  | [], bs, bm => .done bs bm
  | e :: rest, bs, bm =>
    let nk := normalize_text e.Question
    if nk = [] then fuzzyScan nq rest bs bm
    else if nq = nk then .hit e.Response
    else if nk <:+: nq ∨ nq <:+: nk then .hit e.Response
    else
      let score := ratio nq nk
      if bs < score then fuzzyScan nq rest score (some e)
      else fuzzyScan nq rest bs bm

/-- Step 3+ of `find_answer`: each provider adapter is modelled by its
outcome (`none` = missing credential or any failure, `some a` = the
stripped answer text it returned).  On a returned value the adapter
writes it to the fallback cache before `find_answer` tests its
truthiness (an empty string is written as a silent no-op and then falls
through to the next provider). -/
def providerCascade (db : FallbackDB) (q : Str) : List (Option Str × String) → Resolution
  | [] => ⟨none, none, db⟩
  | (res, tier) :: rest =>
    match res with
    | none => providerCascade db q rest
    | some a =>
      let db1 := save_to_local_fallback db q a
      if a = [] then providerCascade db1 q rest else ⟨some a, some tier, db1⟩

/-- Steps 2.5-3 of `find_answer`: the local-cache lookup (`if local_ans:`
is Python truthiness, so both `None` and the empty string fall through to
the providers), then the groq → openai → anthropic cascade. -/
def cacheStep (db : FallbackDB) (groq openai anthropic : Option Str) (q : Str) : Resolution :=
  match get_local_fallback db q with
  | some a =>
    if a = [] then
      providerCascade db q [(groq, "groq"), (openai, "openai"), (anthropic, "anthropic")]
    else ⟨some a, some "local", db⟩
  | none =>
    providerCascade db q [(groq, "groq"), (openai, "openai"), (anthropic, "anthropic")]

/-- `find_answer`: raw exact scan, then normalization (returning absent
outright when the normalized input is empty), then the fuzzy scan with
its early returns and threshold test, then the cache, then the provider
cascade. -/
def find_answer (kb : List KBEntry) (db : FallbackDB)
    (groq openai anthropic : Option Str) (q : Str) : Resolution :=
  match rawExactScan kb q with
  | some r => ⟨some r, some "sheet", db⟩
  | none =>
    let nq := normalize_text q
    if nq = [] then ⟨none, none, db⟩
    else
      match fuzzyScan nq kb 0 none with
      | .hit r => ⟨some r, some "sheet", db⟩
      | .done best bm =>
        match bm with
        | some m =>
          if SIMILARITY_THRESHOLD ≤ best then ⟨some m.Response, some "sheet", db⟩
          else cacheStep db groq openai anthropic q
        | none => cacheStep db groq openai anthropic q

/-- The answer the Knowledge Store tiers (steps 1-2 of `find_answer`)
produce on their own, `none` when they miss (including the empty
normalized-input guard). -/
def kbProduces (kb : List KBEntry) (q : Str) : Option Str :=
  match rawExactScan kb q with
  | some r => some r
  | none =>
    let nq := normalize_text q
    if nq = [] then none
    else
      match fuzzyScan nq kb 0 none with
      | .hit r => some r
      | .done best bm =>
        match bm with
        | some m => if SIMILARITY_THRESHOLD ≤ best then some m.Response else none
        | none => none

/-! ## Proof-support predicates -/

/-- Characters that can appear in a normalized string: a single space or a
lowercase-stable printable word character. -/
def goodChar (c : Char) : Prop :=
  c = ' ' ∨ (pyWord c = true ∧ pyPrintable c = true ∧ pyLower c = c)

/-- No two adjacent whitespace characters. -/
def noWsRun (s : Str) : Prop :=
  s.Chain' (fun a b => ¬ (pySpace a = true ∧ pySpace b = true))

/-- Canonical strings: the shape every `normalize_text` output has, and on
which `normalize_text` is the identity. -/
def canonicalStr (s : Str) : Prop :=
  (∀ c ∈ s, goodChar c) ∧ noWsRun s ∧
  (∀ c, s.head? = some c → pySpace c = false) ∧
  (∀ c, s.getLast? = some c → pySpace c = false)

/-! ## Lemmas about the similarity scorer -/

/-- The rational produced by `ratio` is the exact quotient `2*M/T`. -/
theorem ratio_eq_div (a b : Str) (h : a.length + b.length ≠ 0) :
    ratio a b = 2 * (totalMatch a b : ℚ) / ((a.length : ℚ) + (b.length : ℚ)) := by
  rw [ratio, if_neg h, Rat.mkRat_eq_div]
  push_cast
  ring

theorem cpl_le_left (a b : Str) : cpl a b ≤ a.length := by
  induction a generalizing b with
  | nil => simp [cpl]
  | cons x xs ih =>
    cases b with
    | nil => simp [cpl]
    | cons y ys =>
      simp only [cpl, List.length_cons]
      split
      · exact Nat.succ_le_succ (ih ys)
      · exact Nat.zero_le _

theorem cpl_le_right (a b : Str) : cpl a b ≤ b.length := by
  induction a generalizing b with
  | nil => simp [cpl]
  | cons x xs ih =>
    cases b with
    | nil => simp [cpl]
    | cons y ys =>
      simp only [cpl, List.length_cons]
      split
      · exact Nat.succ_le_succ (ih ys)
      · exact Nat.zero_le _

theorem cpl_append (p s t : Str) : cpl (p ++ s) (p ++ t) = p.length + cpl s t := by
  induction p with
  | nil => simp
  | cons x xs ih => simp [cpl, ih]; omega

theorem cpl_eq_zero_of_disjoint {a b : Str} (h : ∀ c ∈ a, c ∉ b) : cpl a b = 0 := by
  cases a with
  | nil => rfl
  | cons x xs =>
    cases b with
    | nil => rfl
    | cons y ys =>
      simp only [cpl]
      split
      · rename_i hxy
        exact absurd (List.mem_cons_self x xs) fun hx =>
          (h x hx (hxy ▸ List.mem_cons_self y ys)).elim
      · rfl

theorem mem_idxPairs {m n : Nat} {p : Nat × Nat} :
    p ∈ idxPairs m n ↔ p.1 < m ∧ p.2 < n := by
  simp only [idxPairs, List.mem_flatMap, List.mem_map, List.mem_range]
  constructor
  · rintro ⟨i, hi, j, hj, rfl⟩
    exact ⟨hi, hj⟩
  · rintro ⟨h1, h2⟩
    exact ⟨p.1, h1, p.2, h2, rfl⟩

/-- If no candidate pair strictly improves on the accumulator, the
longest-match fold leaves it unchanged. -/
theorem foldl_flmStep_stable (a b : Str) (l : List (Nat × Nat)) (acc : Nat × Nat × Nat)
    (h : ∀ p ∈ l, cpl (a.drop p.1) (b.drop p.2) ≤ acc.2.2) :
    l.foldl (flmStep a b) acc = acc := by
  induction l with
  | nil => rfl
  | cons p rest ih =>
    have hp := h p (List.mem_cons_self p rest)
    have hstep : flmStep a b acc p = acc := by
      simp only [flmStep]
      rw [if_neg (by omega)]
    rw [List.foldl_cons, hstep]
    exact ih fun q hq => h q (List.mem_cons_of_mem _ hq)

/-- Any property holding of the initial accumulator and of every
candidate block holds of the longest-match fold's result. -/
theorem foldl_flmStep_inv (a b : Str) (P : Nat × Nat × Nat → Prop)
    (l : List (Nat × Nat)) (acc : Nat × Nat × Nat) (hacc : P acc)
    (h : ∀ p ∈ l, P (p.1, p.2, cpl (a.drop p.1) (b.drop p.2))) :
    P (l.foldl (flmStep a b) acc) := by
  induction l generalizing acc with
  | nil => exact hacc
  | cons p rest ih =>
    rw [List.foldl_cons]
    refine ih _ ?_ fun q hq => h q (List.mem_cons_of_mem _ hq)
    simp only [flmStep]
    split
    · exact h p (List.mem_cons_self p rest)
    · exact hacc

/-- The block returned by `flm` lies inside both strings. -/
theorem flm_bounds (a b : Str) :
    (flm a b).1 + (flm a b).2.2 ≤ a.length ∧ (flm a b).2.1 + (flm a b).2.2 ≤ b.length := by
  refine foldl_flmStep_inv a b
    (fun t => t.1 + t.2.2 ≤ a.length ∧ t.2.1 + t.2.2 ≤ b.length) _ _ (by simp) ?_
  intro p hp
  have hm := mem_idxPairs.mp hp
  have h1 := cpl_le_left (a.drop p.1) (b.drop p.2)
  have h2 := cpl_le_right (a.drop p.1) (b.drop p.2)
  simp only [List.length_drop] at h1 h2
  constructor
  · show p.1 + cpl (a.drop p.1) (b.drop p.2) ≤ a.length
    omega
  · show p.2 + cpl (a.drop p.1) (b.drop p.2) ≤ b.length
    omega

theorem idxPairs_zero_left (n : Nat) : idxPairs 0 n = [] := rfl

theorem idxPairs_zero_right (m : Nat) : idxPairs m 0 = [] := by
  simp [idxPairs]

theorem tmF_nil_left (fuel : Nat) (b : Str) : tmF fuel [] b = 0 := by
  cases fuel with
  | zero => rfl
  | succ f => simp [tmF, flm, idxPairs_zero_left]

theorem tmF_nil_right (fuel : Nat) (a : Str) : tmF fuel a [] = 0 := by
  cases fuel with
  | zero => rfl
  | succ f => simp [tmF, flm, idxPairs_zero_right]

theorem idxPairs_succ_succ (m n : Nat) :
    idxPairs (m + 1) (n + 1) =
      (0, 0) :: (((List.range n).map Nat.succ).map (fun j => ((0 : Nat), j)) ++
        ((List.range m).map Nat.succ).flatMap
          (fun i => ((0 : Nat) :: (List.range n).map Nat.succ).map (fun j => (i, j)))) := by
  simp only [idxPairs, List.range_succ_eq_map, List.flatMap_cons, List.map_cons,
    List.cons_append]

/-- If the block starting at `(0, 0)` has positive length `v` and no
candidate block is longer, `flm` returns exactly `(0, 0, v)`. -/
theorem flm_eq_head (a b : Str) (v : Nat) (hv : 0 < v) (h00 : cpl a b = v)
    (hall : ∀ p ∈ idxPairs a.length b.length, cpl (a.drop p.1) (b.drop p.2) ≤ v) :
    flm a b = (0, 0, v) := by
  match a, b with
  | [], _ => simp [cpl] at h00; omega
  | x :: xs, [] => simp [cpl] at h00; omega
  | x :: xs, y :: ys =>
    rw [flm, List.length_cons, List.length_cons, idxPairs_succ_succ, List.foldl_cons]
    have hstep : flmStep (x :: xs) (y :: ys) (0, 0, 0) (0, 0) = (0, 0, v) := by
      simp only [flmStep, List.drop_zero]
      rw [h00, if_pos hv]
    rw [hstep]
    refine foldl_flmStep_stable _ _ _ _ fun q hq => ?_
    refine hall q ?_
    rw [List.length_cons, List.length_cons, idxPairs_succ_succ]
    exact List.mem_cons_of_mem _ hq

theorem cpl_refl (a : Str) : cpl a a = a.length := by
  induction a with
  | nil => rfl
  | cons x xs ih => simp [cpl, ih]

theorem cpl_self_append (a t : Str) : cpl a (a ++ t) = a.length := by
  induction a with
  | nil => rfl
  | cons x xs ih => simp [cpl, ih]

theorem totalMatch_self (a : Str) : totalMatch a a = a.length := by
  cases a with
  | nil => rfl
  | cons x xs =>
    have hflm : flm (x :: xs) (x :: xs) = (0, 0, (x :: xs).length) := by
      refine flm_eq_head _ _ _ (by simp) (cpl_refl _) fun p hp => ?_
      have := cpl_le_left ((x :: xs).drop p.1) ((x :: xs).drop p.2)
      simp only [List.length_drop] at this
      omega
    rw [totalMatch, List.length_cons, tmF, hflm]
    simp [tmF_nil_left, List.drop_length]

theorem totalMatch_self_append (a t : Str) : totalMatch a (a ++ t) = a.length := by
  cases a with
  | nil => simp [totalMatch, tmF]
  | cons x xs =>
    have hflm : flm (x :: xs) ((x :: xs) ++ t) = (0, 0, (x :: xs).length) := by
      refine flm_eq_head _ _ _ (by simp) (cpl_self_append _ _) fun p hp => ?_
      have := cpl_le_left (((x :: xs)).drop p.1) (((x :: xs) ++ t).drop p.2)
      simp only [List.length_drop] at this
      omega
    rw [totalMatch, List.length_cons, tmF, hflm]
    simp [tmF_nil_left, List.drop_succ_cons, List.drop_length]

theorem flm_of_disjoint {a b : Str} (h : ∀ c ∈ a, c ∉ b) : flm a b = (0, 0, 0) := by
  refine foldl_flmStep_stable _ _ _ _ fun p hp => ?_
  have : cpl (a.drop p.1) (b.drop p.2) = 0 :=
    cpl_eq_zero_of_disjoint fun c hc hcb =>
      h c (List.mem_of_mem_drop hc) (List.mem_of_mem_drop hcb)
  omega

theorem totalMatch_disjoint {a b : Str} (h : ∀ c ∈ a, c ∉ b) : totalMatch a b = 0 := by
  rw [totalMatch]
  cases hl : a.length with
  | zero => rfl
  | succ f =>
    rw [tmF, flm_of_disjoint h]
    simp

theorem tmF_le (fuel : Nat) (a b : Str) : tmF fuel a b ≤ a.length ∧ tmF fuel a b ≤ b.length := by
  induction fuel generalizing a b with
  | zero => simp [tmF]
  | succ f ih =>
    rw [tmF]
    by_cases hz : (flm a b).2.2 = 0
    · simp [hz]
    · rw [if_neg hz]
      obtain ⟨hb1, hb2⟩ := flm_bounds a b
      obtain ⟨l1, l2⟩ := ih (a.take (flm a b).1) (b.take (flm a b).2.1)
      obtain ⟨r1, r2⟩ := ih (a.drop ((flm a b).1 + (flm a b).2.2))
        (b.drop ((flm a b).2.1 + (flm a b).2.2))
      simp only [List.length_take, List.length_drop] at l1 l2 r1 r2
      omega

theorem totalMatch_le (a b : Str) : totalMatch a b ≤ a.length ∧ totalMatch a b ≤ b.length :=
  tmF_le a.length a b

theorem ratio_self (a : Str) : ratio a a = 1 := by
  cases a with
  | nil => rfl
  | cons x xs =>
    rw [ratio, if_neg (by simp), totalMatch_self, Rat.mkRat_eq_div]
    have hL : (0 : ℚ) < ((x :: xs).length + (x :: xs).length : Nat) := by
      exact_mod_cast Nat.succ_pos _
    rw [div_eq_one_iff_eq (by exact_mod_cast hL.ne')]
    push_cast
    ring

theorem ratio_nonneg (a b : Str) : 0 ≤ ratio a b := by
  by_cases h : a.length + b.length = 0
  · rw [ratio, if_pos h]
    exact zero_le_one
  · rw [ratio, if_neg h, Rat.mkRat_eq_div]
    positivity

theorem ratio_le_one (a b : Str) : ratio a b ≤ 1 := by
  by_cases h : a.length + b.length = 0
  · rw [ratio, if_pos h]
  · rw [ratio, if_neg h, Rat.mkRat_eq_div]
    have hT : (0 : ℚ) < ((a.length + b.length : Nat) : ℚ) := by
      have : 0 < a.length + b.length := Nat.pos_of_ne_zero h
      exact_mod_cast this
    rw [div_le_one hT]
    obtain ⟨h1, h2⟩ := totalMatch_le a b
    have : 2 * totalMatch a b ≤ a.length + b.length := by omega
    exact_mod_cast this

/-! ## Lemmas about the autojunk scorer -/

theorem cplP_le_left (P : Char → Bool) (a b : Str) : cplP P a b ≤ a.length := by
  induction a generalizing b with
  | nil => simp [cplP]
  | cons x xs ih =>
    cases b with
    | nil => simp [cplP]
    | cons y ys =>
      simp only [cplP, List.length_cons]
      split
      · exact Nat.succ_le_succ (ih ys)
      · exact Nat.zero_le _

theorem cplP_le_right (P : Char → Bool) (a b : Str) : cplP P a b ≤ b.length := by
  induction a generalizing b with
  | nil => simp [cplP]
  | cons x xs ih =>
    cases b with
    | nil => simp [cplP]
    | cons y ys =>
      simp only [cplP, List.length_cons]
      split
      · exact Nat.succ_le_succ (ih ys)
      · exact Nat.zero_le _

theorem cplP_le_diag_right (P : Char → Bool) (a b : Str) : cplP P a b ≤ cplP P b b := by
  induction a generalizing b with
  | nil => simp [cplP]
  | cons x xs ih =>
    cases b with
    | nil => simp [cplP]
    | cons y ys =>
      by_cases h : x = y ∧ P y = false
      · obtain ⟨hxy, hPy⟩ := h
        subst hxy
        have h1 : cplP P (x :: xs) (x :: ys) = cplP P xs ys + 1 := by simp [cplP, hPy]
        have h2 : cplP P (x :: ys) (x :: ys) = cplP P ys ys + 1 := by simp [cplP, hPy]
        rw [h1, h2]
        exact Nat.succ_le_succ (ih ys)
      · have h1 : cplP P (x :: xs) (y :: ys) = 0 := by
          simp only [cplP]
          rw [if_neg h]
        rw [h1]
        exact Nat.zero_le _

theorem cplP_le_diag_left (P : Char → Bool) (a b : Str) : cplP P a b ≤ cplP P a a := by
  induction a generalizing b with
  | nil => simp [cplP]
  | cons x xs ih =>
    cases b with
    | nil => simp [cplP]
    | cons y ys =>
      by_cases h : x = y ∧ P y = false
      · obtain ⟨hxy, hPy⟩ := h
        subst hxy
        have h1 : cplP P (x :: xs) (x :: ys) = cplP P xs ys + 1 := by simp [cplP, hPy]
        have h2 : cplP P (x :: xs) (x :: xs) = cplP P xs xs + 1 := by simp [cplP, hPy]
        rw [h1, h2]
        exact Nat.succ_le_succ (ih ys)
      · have h1 : cplP P (x :: xs) (y :: ys) = 0 := by
          simp only [cplP]
          rw [if_neg h]
        rw [h1]
        exact Nat.zero_le _

theorem foldl_flmStepA_stable (P : Char → Bool) (a b : Str) (l : List (Nat × Nat))
    (acc : Nat × Nat × Nat)
    (h : ∀ p ∈ l, cplP P (a.drop p.1) (b.drop p.2) ≤ acc.2.2) :
    l.foldl (flmStepA P a b) acc = acc := by
  induction l with
  | nil => rfl
  | cons p rest ih =>
    have hp := h p (List.mem_cons_self p rest)
    have hstep : flmStepA P a b acc p = acc := by
      simp only [flmStepA]
      rw [if_neg (by omega)]
    rw [List.foldl_cons, hstep]
    exact ih fun q hq => h q (List.mem_cons_of_mem _ hq)

theorem foldl_flmStepA_inv (P : Char → Bool) (a b : Str) (Q : Nat × Nat × Nat → Prop)
    (l : List (Nat × Nat)) (acc : Nat × Nat × Nat) (hacc : Q acc)
    (h : ∀ p ∈ l, Q (p.1, p.2, cplP P (a.drop p.1) (b.drop p.2))) :
    Q (l.foldl (flmStepA P a b) acc) := by
  induction l generalizing acc with
  | nil => exact hacc
  | cons p rest ih =>
    rw [List.foldl_cons]
    refine ih _ ?_ fun q hq => h q (List.mem_cons_of_mem _ hq)
    simp only [flmStepA]
    split
    · exact h p (List.mem_cons_self p rest)
    · exact hacc

theorem foldl_flmStepA_acc_le (P : Char → Bool) (a b : Str) (l : List (Nat × Nat))
    (acc : Nat × Nat × Nat) :
    acc.2.2 ≤ (l.foldl (flmStepA P a b) acc).2.2 := by
  induction l generalizing acc with
  | nil => exact le_refl _
  | cons p rest ih =>
    rw [List.foldl_cons]
    refine le_trans ?_ (ih (flmStepA P a b acc p))
    simp only [flmStepA]
    split
    · rename_i hlt
      exact le_of_lt hlt
    · exact le_refl _

theorem foldl_flmStepA_ge (P : Char → Bool) (a b : Str) (l : List (Nat × Nat))
    (acc : Nat × Nat × Nat) :
    ∀ p ∈ l, cplP P (a.drop p.1) (b.drop p.2) ≤ (l.foldl (flmStepA P a b) acc).2.2 := by
  induction l generalizing acc with
  | nil => intro p hp; cases hp
  | cons q rest ih =>
    intro p hp
    rw [List.foldl_cons]
    rcases List.mem_cons.mp hp with h1 | h1
    · subst h1
      refine le_trans ?_ (foldl_flmStepA_acc_le P a b rest (flmStepA P a b acc p))
      simp only [flmStepA]
      split
      · exact le_refl _
      · rename_i hnlt
        exact Nat.le_of_not_lt hnlt
    · exact ih (flmStepA P a b acc q) p h1

theorem foldl_flmStepA_cases (P : Char → Bool) (a b : Str) (l : List (Nat × Nat)) :
    ∀ acc : Nat × Nat × Nat,
      l.foldl (flmStepA P a b) acc = acc ∨
      ∃ p ∈ l, l.foldl (flmStepA P a b) acc =
        (p.1, p.2, cplP P (a.drop p.1) (b.drop p.2)) ∧
        acc.2.2 < cplP P (a.drop p.1) (b.drop p.2) := by
  induction l with
  | nil => intro acc; exact Or.inl rfl
  | cons q rest ih =>
    intro acc
    rw [List.foldl_cons]
    by_cases hq : acc.2.2 < cplP P (a.drop q.1) (b.drop q.2)
    · have hstep : flmStepA P a b acc q = (q.1, q.2, cplP P (a.drop q.1) (b.drop q.2)) := by
        simp only [flmStepA]
        rw [if_pos hq]
      rw [hstep]
      rcases ih (q.1, q.2, cplP P (a.drop q.1) (b.drop q.2)) with h1 | ⟨p, hp, h2, h3⟩
      · exact Or.inr ⟨q, List.mem_cons_self _ _, h1, hq⟩
      · refine Or.inr ⟨p, List.mem_cons_of_mem _ hp, h2, ?_⟩
        have h4 : cplP P (a.drop q.1) (b.drop q.2) <
            cplP P (a.drop p.1) (b.drop p.2) := h3
        omega
    · have hstep : flmStepA P a b acc q = acc := by
        simp only [flmStepA]
        rw [if_neg hq]
      rw [hstep]
      rcases ih acc with h1 | ⟨p, hp, h2, h3⟩
      · exact Or.inl h1
      · exact Or.inr ⟨p, List.mem_cons_of_mem _ hp, h2, h3⟩


theorem cpl_nil_right (a : Str) : cpl a [] = 0 := by
  cases a <;> rfl

theorem range_split_at (m n : Nat) (h : m ≤ n) :
    List.range n = List.range m ++ List.range' m (n - m) := by
  rw [List.range_eq_range', List.range_eq_range']
  rw [show n = (n - m) + m by omega]
  rw [← List.range'_append]
  norm_num

theorem idxPairs_succ_left (m n : Nat) :
    idxPairs (m + 1) n = idxPairs m n ++ (List.range n).map (fun j => (m, j)) := by
  rw [idxPairs, idxPairs, List.range_succ, List.flatMap_append]
  simp

/-- For a self-comparison, the DP phase's running best stays on the
diagonal: every off-diagonal candidate is dominated by a diagonal
candidate that the lexicographic scan has already processed. -/
theorem coreFold_diag (P : Char → Bool) (x : Str) :
    ∀ m : Nat,
      ((idxPairs m x.length).foldl (flmStepA P x x) (0, 0, 0)).1 =
        ((idxPairs m x.length).foldl (flmStepA P x x) (0, 0, 0)).2.1 ∧
      ∀ d, d < m → cplP P (x.drop d) (x.drop d) ≤
        ((idxPairs m x.length).foldl (flmStepA P x x) (0, 0, 0)).2.2 := by
  intro m
  induction m with
  | zero =>
    refine ⟨rfl, fun d hd => ?_⟩
    exact absurd hd (Nat.not_lt_zero d)
  | succ m ih =>
    obtain ⟨ih1, ih2⟩ := ih
    rw [idxPairs_succ_left, List.foldl_append]
    set r := (idxPairs m x.length).foldl (flmStepA P x x) (0, 0, 0) with hr
    by_cases hm : m < x.length
    · obtain ⟨k, hk⟩ : ∃ k, x.length - m = k + 1 := ⟨x.length - m - 1, by omega⟩
      have hsplit : List.range x.length = List.range m ++ (m :: List.range' (m + 1) k) := by
        rw [range_split_at m x.length (le_of_lt hm), hk, List.range'_succ]
      rw [hsplit, List.map_append, List.map_cons, List.foldl_append, List.foldl_cons]
      have hstab1 : ((List.range m).map (fun j => (m, j))).foldl (flmStepA P x x) r = r := by
        refine foldl_flmStepA_stable P x x _ r fun p hp => ?_
        rw [List.mem_map] at hp
        obtain ⟨j, hj, rfl⟩ := hp
        rw [List.mem_range] at hj
        exact le_trans (cplP_le_diag_right P _ _) (ih2 j hj)
      rw [hstab1]
      have hd1 : (flmStepA P x x r (m, m)).1 = (flmStepA P x x r (m, m)).2.1 ∧
          ∀ d, d < m + 1 → cplP P (x.drop d) (x.drop d) ≤
            (flmStepA P x x r (m, m)).2.2 := by
        simp only [flmStepA]
        split
        · rename_i hlt
          refine ⟨rfl, fun d hd => ?_⟩
          by_cases hdm : d = m
          · subst hdm
            exact le_refl _
          · exact le_trans (ih2 d (by omega)) (le_of_lt hlt)
        · rename_i hnlt
          refine ⟨ih1, fun d hd => ?_⟩
          by_cases hdm : d = m
          · subst hdm
            exact Nat.le_of_not_lt hnlt
          · exact ih2 d (by omega)
      have hstab2 : ((List.range' (m + 1) k).map (fun j => (m, j))).foldl
          (flmStepA P x x) (flmStepA P x x r (m, m)) = flmStepA P x x r (m, m) := by
        refine foldl_flmStepA_stable P x x _ _ fun p hp => ?_
        rw [List.mem_map] at hp
        obtain ⟨j, hj, rfl⟩ := hp
        exact le_trans (cplP_le_diag_left P _ _) (hd1.2 m (by omega))
      rw [hstab2]
      exact hd1
    · have hstab : ((List.range x.length).map (fun j => (m, j))).foldl
          (flmStepA P x x) r = r := by
        refine foldl_flmStepA_stable P x x _ r fun p hp => ?_
        rw [List.mem_map] at hp
        obtain ⟨j, hj, rfl⟩ := hp
        rw [List.mem_range] at hj
        exact le_trans (cplP_le_diag_right P _ _) (ih2 j (by omega))
      rw [hstab]
      refine ⟨ih1, fun d hd => ?_⟩
      by_cases hdm : d = m
      · subst hdm
        rw [List.drop_eq_nil_of_le (by omega)]
        simp [cplP]
      · exact ih2 d (by omega)

/-- The DP-phase block of a self-comparison lies on the diagonal. -/
theorem coreFlm_self_diag (P : Char → Bool) (x : Str) :
    (coreFlm P x x).1 = (coreFlm P x x).2.1 :=
  (coreFold_diag P x x.length).1

/-- The DP-phase block lies inside both strings. -/
theorem coreFlm_bounds (P : Char → Bool) (a b : Str) :
    (coreFlm P a b).1 + (coreFlm P a b).2.2 ≤ a.length ∧
    (coreFlm P a b).2.1 + (coreFlm P a b).2.2 ≤ b.length := by
  refine foldl_flmStepA_inv P a b
    (fun t => t.1 + t.2.2 ≤ a.length ∧ t.2.1 + t.2.2 ≤ b.length) _ _ (by simp) ?_
  intro p hp
  have hm := mem_idxPairs.mp hp
  have h1 := cplP_le_left P (a.drop p.1) (b.drop p.2)
  have h2 := cplP_le_right P (a.drop p.1) (b.drop p.2)
  simp only [List.length_drop] at h1 h2
  constructor
  · show p.1 + cplP P (a.drop p.1) (b.drop p.2) ≤ a.length
    omega
  · show p.2 + cplP P (a.drop p.1) (b.drop p.2) ≤ b.length
    omega

/-- On a self-comparison, `find_longest_match` with autojunk always
returns the whole string: the diagonal DP block (possibly empty, at the
range start) extends over equal characters to both ends. -/
theorem flmAuto_self (P : Char → Bool) (x : Str) : flmAuto P x x = (0, 0, x.length) := by
  have hdiag := coreFlm_self_diag P x
  have hb := (coreFlm_bounds P x x).1
  have hl : cpl (x.take (coreFlm P x x).1).reverse (x.take (coreFlm P x x).2.1).reverse =
      (coreFlm P x x).1 := by
    rw [← hdiag, cpl_refl, List.length_reverse, List.length_take]
    omega
  have hr : cpl (x.drop ((coreFlm P x x).1 + (coreFlm P x x).2.2))
      (x.drop ((coreFlm P x x).2.1 + (coreFlm P x x).2.2)) =
      x.length - ((coreFlm P x x).1 + (coreFlm P x x).2.2) := by
    rw [← hdiag, cpl_refl, List.length_drop]
  simp only [flmAuto]
  rw [hl, hr, ← hdiag]
  simp only [Prod.mk.injEq]
  refine ⟨by omega, by omega, by omega⟩

/-- The extended block produced by `flmAuto` lies inside both strings. -/
theorem flmAuto_bounds (P : Char → Bool) (a b : Str) :
    (flmAuto P a b).1 + (flmAuto P a b).2.2 ≤ a.length ∧
    (flmAuto P a b).2.1 + (flmAuto P a b).2.2 ≤ b.length := by
  obtain ⟨hb1, hb2⟩ := coreFlm_bounds P a b
  have hl1 : cpl (a.take (coreFlm P a b).1).reverse (b.take (coreFlm P a b).2.1).reverse ≤
      (coreFlm P a b).1 := by
    have := cpl_le_left (a.take (coreFlm P a b).1).reverse
      (b.take (coreFlm P a b).2.1).reverse
    rw [List.length_reverse, List.length_take] at this
    omega
  have hl2 : cpl (a.take (coreFlm P a b).1).reverse (b.take (coreFlm P a b).2.1).reverse ≤
      (coreFlm P a b).2.1 := by
    have := cpl_le_right (a.take (coreFlm P a b).1).reverse
      (b.take (coreFlm P a b).2.1).reverse
    rw [List.length_reverse, List.length_take] at this
    omega
  have hr1 : cpl (a.drop ((coreFlm P a b).1 + (coreFlm P a b).2.2))
      (b.drop ((coreFlm P a b).2.1 + (coreFlm P a b).2.2)) ≤
      a.length - ((coreFlm P a b).1 + (coreFlm P a b).2.2) := by
    have := cpl_le_left (a.drop ((coreFlm P a b).1 + (coreFlm P a b).2.2))
      (b.drop ((coreFlm P a b).2.1 + (coreFlm P a b).2.2))
    rw [List.length_drop] at this
    exact this
  have hr2 : cpl (a.drop ((coreFlm P a b).1 + (coreFlm P a b).2.2))
      (b.drop ((coreFlm P a b).2.1 + (coreFlm P a b).2.2)) ≤
      b.length - ((coreFlm P a b).2.1 + (coreFlm P a b).2.2) := by
    have := cpl_le_right (a.drop ((coreFlm P a b).1 + (coreFlm P a b).2.2))
      (b.drop ((coreFlm P a b).2.1 + (coreFlm P a b).2.2))
    rw [List.length_drop] at this
    exact this
  simp only [flmAuto]
  constructor
  · show (coreFlm P a b).1 - _ + (_ + (coreFlm P a b).2.2 + _) ≤ a.length
    omega
  · show (coreFlm P a b).2.1 - _ + (_ + (coreFlm P a b).2.2 + _) ≤ b.length
    omega

theorem tmFAuto_nil_left (P : Char → Bool) (fuel : Nat) (b : Str) :
    tmFAuto P fuel [] b = 0 := by
  cases fuel with
  | zero => rfl
  | succ f => simp [tmFAuto, flmAuto, coreFlm, idxPairs_zero_left, cpl]

theorem tmFAuto_nil_right (P : Char → Bool) (fuel : Nat) (a : Str) :
    tmFAuto P fuel a [] = 0 := by
  cases fuel with
  | zero => rfl
  | succ f => simp [tmFAuto, flmAuto, coreFlm, idxPairs_zero_right, cpl_nil_right]

theorem tmFAuto_le (P : Char → Bool) (fuel : Nat) (a b : Str) :
    tmFAuto P fuel a b ≤ a.length ∧ tmFAuto P fuel a b ≤ b.length := by
  induction fuel generalizing a b with
  | zero => simp [tmFAuto]
  | succ f ih =>
    rw [tmFAuto]
    by_cases hz : (flmAuto P a b).2.2 = 0
    · simp [hz]
    · rw [if_neg hz]
      obtain ⟨hb1, hb2⟩ := flmAuto_bounds P a b
      obtain ⟨l1, l2⟩ := ih (a.take (flmAuto P a b).1) (b.take (flmAuto P a b).2.1)
      obtain ⟨r1, r2⟩ := ih (a.drop ((flmAuto P a b).1 + (flmAuto P a b).2.2))
        (b.drop ((flmAuto P a b).2.1 + (flmAuto P a b).2.2))
      simp only [List.length_take, List.length_drop] at l1 l2 r1 r2
      omega

theorem totalMatchAuto_self (x : Str) : totalMatchAuto x x = x.length := by
  cases x with
  | nil => rfl
  | cons c cs =>
    rw [totalMatchAuto, List.length_cons, tmFAuto, flmAuto_self]
    simp [tmFAuto_nil_left, List.drop_length]

theorem ratioAuto_self (a : Str) : ratioAuto a a = 1 := by
  cases a with
  | nil => rfl
  | cons c cs =>
    rw [ratioAuto, if_neg (by simp), totalMatchAuto_self, Rat.mkRat_eq_div]
    have hL : (0 : ℚ) < ((c :: cs).length + (c :: cs).length : Nat) := by
      exact_mod_cast Nat.succ_pos _
    rw [div_eq_one_iff_eq (by exact_mod_cast hL.ne')]
    push_cast
    ring

theorem ratioAuto_nonneg (a b : Str) : 0 ≤ ratioAuto a b := by
  by_cases h : a.length + b.length = 0
  · rw [ratioAuto, if_pos h]
    exact zero_le_one
  · rw [ratioAuto, if_neg h, Rat.mkRat_eq_div]
    positivity

theorem ratioAuto_le_one (a b : Str) : ratioAuto a b ≤ 1 := by
  by_cases h : a.length + b.length = 0
  · rw [ratioAuto, if_pos h]
  · rw [ratioAuto, if_neg h, Rat.mkRat_eq_div]
    have hT : (0 : ℚ) < ((a.length + b.length : Nat) : ℚ) := by
      have : 0 < a.length + b.length := Nat.pos_of_ne_zero h
      exact_mod_cast this
    rw [div_le_one hT]
    obtain ⟨h1, h2⟩ := tmFAuto_le (popularB b) a.length a b
    have : 2 * totalMatchAuto a b ≤ a.length + b.length := by
      rw [totalMatchAuto]
      omega
    exact_mod_cast this


theorem cpl_nil_left (v : Str) : cpl [] v = 0 := by
  cases v <;> rfl

theorem cpl_pos_heads {u v : Str} (h : 0 < cpl u v) :
    ∃ c u2 v2, u = c :: u2 ∧ v = c :: v2 := by
  cases u with
  | nil => rw [cpl_nil_left] at h; omega
  | cons x xs =>
    cases v with
    | nil => rw [cpl_nil_right] at h; omega
    | cons y ys =>
      by_cases hxy : x = y
      · exact ⟨x, xs, ys, rfl, by rw [hxy]⟩
      · have h0 : cpl (x :: xs) (y :: ys) = 0 := by simp [cpl, hxy]
        omega

theorem cpl_drop_cpl : ∀ u v : Str, cpl (u.drop (cpl u v)) (v.drop (cpl u v)) = 0 := by
  intro u
  induction u with
  | nil => intro v; rw [cpl_nil_left]; exact cpl_nil_left v
  | cons x xs ih =>
    intro v
    cases v with
    | nil => rw [cpl_nil_right]; exact cpl_nil_right _
    | cons y ys =>
      by_cases hxy : x = y
      · have h1 : cpl (x :: xs) (y :: ys) = cpl xs ys + 1 := by simp [cpl, hxy]
        rw [h1]
        exact ih ys
      · have h1 : cpl (x :: xs) (y :: ys) = 0 := by simp [cpl, hxy]
        rw [h1]
        exact h1

theorem popularB_false_of_short {b : Str} (h : b.length < 200) :
    ∀ c, popularB b c = false := by
  intro c
  have h2 : ¬ (200 ≤ b.length) := by omega
  simp [popularB, h2]

theorem cplP_eq_cpl {P : Char → Bool} (hP : ∀ c, P c = false) :
    ∀ a b : Str, cplP P a b = cpl a b := by
  intro a
  induction a with
  | nil => intro b; cases b <;> rfl
  | cons x xs ih =>
    intro b
    cases b with
    | nil => rfl
    | cons y ys =>
      by_cases hxy : x = y
      · have h1 : cplP P (x :: xs) (y :: ys) = cplP P xs ys + 1 := by
          simp [cplP, hxy, hP y]
        have h2 : cpl (x :: xs) (y :: ys) = cpl xs ys + 1 := by
          simp [cpl, hxy]
        rw [h1, h2, ih]
      · have h1 : cplP P (x :: xs) (y :: ys) = 0 := by simp [cplP, hxy]
        have h2 : cpl (x :: xs) (y :: ys) = 0 := by simp [cpl, hxy]
        rw [h1, h2]

theorem coreFlm_eq_flm {P : Char → Bool} (hP : ∀ c, P c = false) (a b : Str) :
    coreFlm P a b = flm a b := by
  have hstep : flmStepA P a b = flmStep a b := by
    funext best p
    simp only [flmStepA, flmStep, cplP_eq_cpl hP]
  rw [coreFlm, flm, hstep]

theorem flmAuto_eq_flm {P : Char → Bool} (hP : ∀ c, P c = false) (a b : Str) :
    flmAuto P a b = flm a b := by
  have hcore : coreFlm P a b = flm a b := coreFlm_eq_flm hP a b
  rcases foldl_flmStepA_cases P a b (idxPairs a.length b.length) (0, 0, 0) with
    h0 | ⟨p, hp, hEq, hPos⟩
  · have hR : coreFlm P a b = (0, 0, 0) := h0
    have hcab : cpl a b = 0 := by
      rcases Nat.eq_zero_or_pos (cpl a b) with h | h
      · exact h
      · exfalso
        rcases cpl_pos_heads h with ⟨c, u2, v2, hA, hB⟩
        have ha : 0 < a.length := by rw [hA]; simp
        have hb : 0 < b.length := by rw [hB]; simp
        have hmem : ((0 : Nat), (0 : Nat)) ∈ idxPairs a.length b.length :=
          mem_idxPairs.mpr ⟨ha, hb⟩
        have hge := foldl_flmStepA_ge P a b (idxPairs a.length b.length) (0, 0, 0)
          (0, 0) hmem
        rw [cplP_eq_cpl hP] at hge
        rw [h0] at hge
        have hge2 : cpl a b ≤ 0 := hge
        omega
    have hFlm : flm a b = (0, 0, 0) := by rw [← hcore]; exact h0
    rw [hFlm]
    simp [flmAuto, hR, hcab, cpl_nil_left]
  · rw [cplP_eq_cpl hP] at hEq
    have hPos2 : 0 < cpl (a.drop p.1) (b.drop p.2) := by
      have := hPos
      rw [cplP_eq_cpl hP] at this
      exact this
    obtain ⟨hb1, hb2⟩ := mem_idxPairs.mp hp
    have hR : coreFlm P a b = (p.1, p.2, cpl (a.drop p.1) (b.drop p.2)) := hEq
    have hFlm : flm a b = (p.1, p.2, cpl (a.drop p.1) (b.drop p.2)) := by
      rw [← hcore]; exact hEq
    have hr : cpl (a.drop (p.1 + cpl (a.drop p.1) (b.drop p.2)))
        (b.drop (p.2 + cpl (a.drop p.1) (b.drop p.2))) = 0 := by
      have h1 := cpl_drop_cpl (a.drop p.1) (b.drop p.2)
      rw [List.drop_drop, List.drop_drop] at h1
      exact h1
    have hl0 : cpl (a.take p.1).reverse (b.take p.2).reverse = 0 := by
      rcases Nat.eq_zero_or_pos (cpl (a.take p.1).reverse (b.take p.2).reverse) with
        h | hl
      · exact h
      · exfalso
        rcases cpl_pos_heads hl with ⟨c, u2, v2, hA, hB⟩
        have hp1 : p.1 ≠ 0 := by
          intro h0
          rw [h0] at hA
          simp at hA
        have hp2 : p.2 ≠ 0 := by
          intro h0
          rw [h0] at hB
          simp at hB
        obtain ⟨i0, hi0⟩ : ∃ i0, p.1 = i0 + 1 := ⟨p.1 - 1, by omega⟩
        obtain ⟨j0, hj0⟩ : ∃ j0, p.2 = j0 + 1 := ⟨p.2 - 1, by omega⟩
        have hiA : i0 < a.length := by omega
        have hjB : j0 < b.length := by omega
        have htA : (a.take p.1).reverse = a.get ⟨i0, hiA⟩ :: (a.take i0).reverse := by
          rw [hi0, List.take_succ, List.getElem?_eq_getElem hiA, List.reverse_append]
          rfl
        have htB : (b.take p.2).reverse = b.get ⟨j0, hjB⟩ :: (b.take j0).reverse := by
          rw [hj0, List.take_succ, List.getElem?_eq_getElem hjB, List.reverse_append]
          rfl
        rw [htA] at hA
        rw [htB] at hB
        have hab : a.get ⟨i0, hiA⟩ = b.get ⟨j0, hjB⟩ := by
          have h1 : a.get ⟨i0, hiA⟩ = c := by
            injection hA with h1 h2
          have h2 : b.get ⟨j0, hjB⟩ = c := by
            injection hB with h1 h2
          rw [h1, h2]
        have hdropA : a.drop i0 = a.get ⟨i0, hiA⟩ :: a.drop (i0 + 1) :=
          List.drop_eq_getElem_cons hiA
        have hdropB : b.drop j0 = b.get ⟨j0, hjB⟩ :: b.drop (j0 + 1) :=
          List.drop_eq_getElem_cons hjB
        have hcpl1 : cpl (a.drop i0) (b.drop j0) =
            cpl (a.drop (i0 + 1)) (b.drop (j0 + 1)) + 1 := by
          rw [hdropA, hdropB]
          simp [cpl, hab]
          exact hab
        have hmem2 : ((i0 : Nat), (j0 : Nat)) ∈ idxPairs a.length b.length :=
          mem_idxPairs.mpr ⟨hiA, hjB⟩
        have hge := foldl_flmStepA_ge P a b (idxPairs a.length b.length) (0, 0, 0)
          (i0, j0) hmem2
        rw [cplP_eq_cpl hP, hEq] at hge
        have hge2 : cpl (a.drop i0) (b.drop j0) ≤ cpl (a.drop p.1) (b.drop p.2) := hge
        rw [hcpl1, hi0, hj0] at hge2
        omega
    rw [hFlm]
    simp [flmAuto, hR, hl0, hr]

theorem tmFAuto_eq_tmF {P : Char → Bool} (hP : ∀ c, P c = false) :
    ∀ fuel a b, tmFAuto P fuel a b = tmF fuel a b := by
  intro fuel
  induction fuel with
  | zero => intro a b; rfl
  | succ f ih =>
    intro a b
    rw [tmFAuto, tmF, flmAuto_eq_flm hP]
    simp only [ih]

theorem totalMatchAuto_eq_totalMatch {a b : Str} (h : b.length < 200) :
    totalMatchAuto a b = totalMatch a b := by
  rw [totalMatchAuto, totalMatch, tmFAuto_eq_tmF (popularB_false_of_short h)]

/-- Below 200 characters in the second argument the autojunk heuristic is
inert, and the two models of `ratio()` agree. -/
theorem ratioAuto_eq_ratio_short {a b : Str} (h : b.length < 200) :
    ratioAuto a b = ratio a b := by
  rw [ratioAuto, ratio, totalMatchAuto_eq_totalMatch h]

/-! ## Lemmas about normalization -/

theorem char_eq_of_toNat {c d : Char} (h : c.toNat = d.toNat) : c = d := by
  rw [← Char.ofNat_toNat c, ← Char.ofNat_toNat d, h]

theorem toNat_ofNat_lt {n : Nat} (h : n < 0xd800) : (Char.ofNat n).toNat = n := by
  rw [Char.ofNat, dif_pos (Or.inl h)]
  rfl

theorem pyLower_idem (c : Char) : pyLower (pyLower c) = pyLower c := by
  by_cases h : 0x41 ≤ c.toNat ∧ c.toNat ≤ 0x5a
  · have h1 : pyLower c = Char.ofNat (c.toNat + 32) := by rw [pyLower, if_pos h]
    rw [h1, pyLower, if_neg (by rw [toNat_ofNat_lt (by omega)]; omega)]
  · have h1 : pyLower c = c := by rw [pyLower, if_neg h]
    rw [h1, h1]

theorem pyLower_printable {c : Char} (h : pyPrintable c = true) :
    pyPrintable (pyLower c) = true := by
  simp only [pyPrintable, decide_eq_true_eq] at h ⊢
  by_cases hc : 0x41 ≤ c.toNat ∧ c.toNat ≤ 0x5a
  · rw [pyLower, if_pos hc, toNat_ofNat_lt (by omega)]
    omega
  · rw [pyLower, if_neg hc]
    exact h

theorem pyWord_not_space {c : Char} (h : pyWord c = true) : pySpace c = false := by
  simp only [pyWord, decide_eq_true_eq] at h
  simp only [pySpace, decide_eq_false_iff_not]
  omega

theorem space_printable_eq {c : Char} (h1 : pySpace c = true) (h2 : pyPrintable c = true) :
    c = ' ' := by
  simp only [pySpace, decide_eq_true_eq] at h1
  simp only [pyPrintable, decide_eq_true_eq] at h2
  have h32 : (' ' : Char).toNat = 32 := rfl
  exact char_eq_of_toNat (by omega)

theorem pyLower_of_space {c : Char} (h : pySpace c = true) : pyLower c = c := by
  simp only [pySpace, decide_eq_true_eq] at h
  rw [pyLower, if_neg (by omega)]

theorem mem_collapseWsAux {c : Char} :
    ∀ {f : Bool} {s : Str}, c ∈ collapseWsAux f s → c = ' ' ∨ (c ∈ s ∧ pySpace c = false) := by
  intro f s
  induction s generalizing f with
  | nil => intro h; cases h
  | cons x r ih =>
    intro h
    by_cases hx : pySpace x = true
    · cases f with
      | true =>
        simp only [collapseWsAux, hx, if_true] at h
        rcases ih h with h1 | ⟨h2, h3⟩
        · exact Or.inl h1
        · exact Or.inr ⟨List.mem_cons_of_mem _ h2, h3⟩
      | false =>
        simp only [collapseWsAux, hx, if_true, Bool.false_eq_true, if_false] at h
        rcases List.mem_cons.mp h with h1 | h1
        · exact Or.inl h1
        · rcases ih h1 with h2 | ⟨h3, h4⟩
          · exact Or.inl h2
          · exact Or.inr ⟨List.mem_cons_of_mem _ h3, h4⟩
    · rw [Bool.not_eq_true] at hx
      simp only [collapseWsAux, hx, Bool.false_eq_true, if_false] at h
      rcases List.mem_cons.mp h with h1 | h1
      · subst h1
        exact Or.inr ⟨List.mem_cons_self _ _, hx⟩
      · rcases ih h1 with h2 | ⟨h3, h4⟩
        · exact Or.inl h2
        · exact Or.inr ⟨List.mem_cons_of_mem _ h3, h4⟩

theorem head_collapseWsAux_true :
    ∀ {s : Str} {c : Char}, (collapseWsAux true s).head? = some c → pySpace c = false := by
  intro s
  induction s with
  | nil => intro c h; cases h
  | cons x r ih =>
    intro c h
    by_cases hx : pySpace x = true
    · simp only [collapseWsAux, hx, if_true] at h
      exact ih h
    · rw [Bool.not_eq_true] at hx
      simp only [collapseWsAux, hx, Bool.false_eq_true, if_false, List.head?_cons,
        Option.some.injEq] at h
      subst h
      exact hx

theorem chain_collapseWsAux : ∀ (f : Bool) (s : Str), noWsRun (collapseWsAux f s) := by
  intro f s
  induction s generalizing f with
  | nil => exact List.chain'_nil
  | cons x r ih =>
    by_cases hx : pySpace x = true
    · cases f with
      | true =>
        simp only [collapseWsAux, hx, if_true]
        exact ih true
      | false =>
        simp only [collapseWsAux, hx, if_true, Bool.false_eq_true, if_false]
        refine List.chain'_cons'.mpr ⟨?_, ih true⟩
        intro y hy h2
        rw [head_collapseWsAux_true hy] at h2
        exact absurd h2.2 (by simp)
    · rw [Bool.not_eq_true] at hx
      simp only [collapseWsAux, hx, Bool.false_eq_true, if_false]
      refine List.chain'_cons'.mpr ⟨?_, ih false⟩
      intro y hy h2
      rw [hx] at h2
      exact absurd h2.1 (by simp)

theorem head_dropWhile {p : Char → Bool} :
    ∀ {l : Str} {c : Char}, (l.dropWhile p).head? = some c → p c = false := by
  intro l
  induction l with
  | nil => intro c h; cases h
  | cons x r ih =>
    intro c h
    by_cases hx : p x = true
    · rw [List.dropWhile_cons_of_pos hx] at h
      exact ih h
    · rw [List.dropWhile_cons_of_neg hx] at h
      simp only [List.head?_cons, Option.some.injEq] at h
      subst h
      simpa using hx

theorem mem_pyStrip {c : Char} {s : Str} (h : c ∈ pyStrip s) : c ∈ s := by
  rw [pyStrip, List.mem_reverse] at h
  have h1 := (List.dropWhile_suffix pySpace).subset h
  rw [List.mem_reverse] at h1
  exact (List.dropWhile_suffix pySpace).subset h1

theorem pyStrip_head {s : Str} {c : Char} (h : (pyStrip s).head? = some c) :
    pySpace c = false := by
  rw [pyStrip, List.head?_reverse] at h
  set w := s.dropWhile pySpace with hw
  set u := w.reverse.dropWhile pySpace with hu
  have hne : u ≠ [] := by
    intro he
    rw [he] at h
    cases h
  obtain ⟨t, ht⟩ := List.dropWhile_suffix (l := w.reverse) pySpace
  have : w.reverse.getLast? = some c := by
    rw [← ht, List.getLast?_append, h]
    rfl
  rw [List.getLast?_reverse] at this
  exact head_dropWhile this
theorem pyStrip_getLast {s : Str} {c : Char} (h : (pyStrip s).getLast? = some c) :
    pySpace c = false := by
  rw [pyStrip, List.getLast?_reverse] at h
  exact head_dropWhile h

theorem noWsRun_reverse {s : Str} (h : noWsRun s) : noWsRun s.reverse := by
  rw [noWsRun, List.chain'_reverse]
  exact h.imp fun a b hab h2 => hab ⟨h2.2, h2.1⟩

theorem noWsRun_pyStrip {s : Str} (h : noWsRun s) : noWsRun (pyStrip s) := by
  rw [pyStrip]
  refine noWsRun_reverse (List.Chain'.suffix ?_ (List.dropWhile_suffix pySpace))
  exact noWsRun_reverse (List.Chain'.suffix h (List.dropWhile_suffix pySpace))

/-- Every output of `normalize_text` is canonical. -/
theorem canonicalStr_normalize (s : Str) : canonicalStr (normalize_text s) := by
  rw [normalize_text]
  refine ⟨?_, ?_, ?_, ?_⟩
  · intro c hc
    rcases mem_collapseWsAux (mem_pyStrip hc) with h1 | ⟨h1, h2⟩
    · exact Or.inl h1
    · rw [List.mem_map] at h1
      obtain ⟨c2, hc2, hsub⟩ := h1
      rw [List.mem_map] at hc2
      obtain ⟨c1, hc1, hlow⟩ := hc2
      rw [List.mem_filter] at hc1
      by_cases hws : pyWord c2 = true ∨ pySpace c2 = true
      · rw [if_neg (not_not_intro hws)] at hsub
        subst hsub
        rcases hws with hw | hs
        · refine Or.inr ⟨hw, ?_, ?_⟩
          · subst hlow
            exact pyLower_printable hc1.2
          · subst hlow
            exact pyLower_idem c1
        · rw [hs] at h2
          cases h2
      · rw [if_pos hws] at hsub
        exact Or.inl hsub.symm
  · exact noWsRun_pyStrip (chain_collapseWsAux false _)
  · intro c hc
    exact pyStrip_head hc
  · intro c hc
    exact pyStrip_getLast hc

theorem map_id_on {α : Type} {f : α → α} :
    ∀ {l : List α}, (∀ c ∈ l, f c = c) → l.map f = l := by
  intro l
  induction l with
  | nil => intro _; rfl
  | cons x r ih =>
    intro h
    rw [List.map_cons, h x (List.mem_cons_self _ _), ih fun c hc => h c (List.mem_cons_of_mem _ hc)]

theorem collapseWsAux_fixed :
    ∀ (t : Str), (∀ c ∈ t, pySpace c = true → c = ' ') → noWsRun t →
      collapseWsAux false t = t ∧
      ((∀ c, t.head? = some c → pySpace c = false) → collapseWsAux true t = t) := by
  intro t
  induction t with
  | nil => exact fun _ _ => ⟨rfl, fun _ => rfl⟩
  | cons x r ih =>
    intro hsp hch
    have hch2 : noWsRun r := (List.chain'_cons'.mp hch).2
    have hsp2 : ∀ c ∈ r, pySpace c = true → c = ' ' :=
      fun c hc => hsp c (List.mem_cons_of_mem _ hc)
    obtain ⟨ihf, iht⟩ := ih hsp2 hch2
    by_cases hx : pySpace x = true
    · have hx' : x = ' ' := hsp x (List.mem_cons_self _ _) hx
      constructor
      · simp only [collapseWsAux, hx, if_true, Bool.false_eq_true, if_false]
        have hhead : ∀ c, r.head? = some c → pySpace c = false := by
          intro c hc
          have := (List.chain'_cons'.mp hch).1 c hc
          rw [Bool.eq_false_iff]
          intro hcs
          exact this ⟨hx, hcs⟩
        rw [iht hhead, hx']
      · intro hh
        have := hh x (by rfl)
        rw [hx] at this
        cases this
    · rw [Bool.not_eq_true] at hx
      have hcons : ∀ f : Bool, collapseWsAux f (x :: r) = x :: collapseWsAux false r := by
        intro f
        simp only [collapseWsAux, hx, Bool.false_eq_true, if_false]
      rw [hcons, hcons, ihf]
      exact ⟨rfl, fun _ => rfl⟩

theorem dropWhile_eq_self_of_head {p : Char → Bool} {l : Str}
    (h : ∀ c, l.head? = some c → p c = false) : l.dropWhile p = l := by
  cases l with
  | nil => rfl
  | cons x r => exact List.dropWhile_cons_of_neg (by rw [h x rfl]; simp)

theorem pyStrip_fixed {t : Str} (hh : ∀ c, t.head? = some c → pySpace c = false)
    (hl : ∀ c, t.getLast? = some c → pySpace c = false) : pyStrip t = t := by
  rw [pyStrip, dropWhile_eq_self_of_head hh, dropWhile_eq_self_of_head
    (by rw [List.head?_reverse]; exact hl), List.reverse_reverse]

/-- `normalize_text` is the identity on canonical strings. -/
theorem normalize_fixed {t : Str} (h : canonicalStr t) : normalize_text t = t := by
  obtain ⟨hg, hch, hh, hl⟩ := h
  have hfil : t.filter pyPrintable = t := by
    refine List.filter_eq_self.mpr fun c hc => ?_
    rcases hg c hc with h1 | ⟨_, h2, _⟩
    · rw [h1]
      rfl
    · exact h2
  have hlow : t.map pyLower = t := by
    refine map_id_on fun c hc => ?_
    rcases hg c hc with h1 | ⟨_, _, h3⟩
    · rw [h1]
      rfl
    · exact h3
  have hsub : t.map (fun c => if ¬ (pyWord c ∨ pySpace c) then ' ' else c) = t := by
    refine map_id_on fun c hc => ?_
    rcases hg c hc with h1 | ⟨h2, _, _⟩
    · rw [if_neg]
      simp only [not_not]
      right
      rw [h1]
      rfl
    · rw [if_neg]
      simp only [not_not]
      exact Or.inl h2
  have hcoll : collapseWs t = t := by
    rw [collapseWs]
    refine (collapseWsAux_fixed t ?_ hch).1
    intro c hc hcs
    rcases hg c hc with h1 | ⟨h2, _, _⟩
    · exact h1
    · rw [pyWord_not_space h2] at hcs
      cases hcs
  show pyStrip (collapseWs (((t.filter pyPrintable).map pyLower).map
    (fun c => if ¬ (pyWord c ∨ pySpace c) then ' ' else c))) = t
  rw [hfil, hlow, hsub, hcoll]
  exact pyStrip_fixed hh hl

theorem collapseWsAux_allspace :
    ∀ {l : Str}, (∀ c ∈ l, pySpace c = true) →
      collapseWsAux true l = [] ∧
      collapseWsAux false l = (if l = [] then [] else [' ']) := by
  intro l
  induction l with
  | nil => exact fun _ => ⟨rfl, rfl⟩
  | cons x r ih =>
    intro h
    have hx : pySpace x = true := h x (List.mem_cons_self _ _)
    obtain ⟨ih1, _⟩ := ih fun c hc => h c (List.mem_cons_of_mem _ hc)
    constructor
    · simp only [collapseWsAux, hx, if_true]
      exact ih1
    · simp only [collapseWsAux, hx, if_true, Bool.false_eq_true, if_false]
      rw [ih1, if_neg (by simp)]

/-- C7: `normalize_text` is idempotent, and whitespace-only (or empty)
input normalizes to the empty string.  This claim is confirmed. -/
theorem c7_normalize_text_idempotent :
    (∀ s : Str, normalize_text (normalize_text s) = normalize_text s) ∧
    (∀ s : Str, (∀ c ∈ s, pySpace c = true) → normalize_text s = []) := by
  constructor
  · intro s
    exact normalize_fixed (canonicalStr_normalize s)
  · intro s hs
    rw [normalize_text]
    have hs3 : ∀ c ∈ ((s.filter pyPrintable).map pyLower).map
        (fun c => if ¬ (pyWord c ∨ pySpace c) then ' ' else c), pySpace c = true := by
      intro c hc
      rw [List.mem_map] at hc
      obtain ⟨c2, hc2, hsub⟩ := hc
      rw [List.mem_map] at hc2
      obtain ⟨c1, hc1, hlow⟩ := hc2
      rw [List.mem_filter] at hc1
      have hsp1 : pySpace c1 = true := hs c1 hc1.1
      have h2 : c2 = c1 := by rw [← hlow, pyLower_of_space hsp1]
      subst h2
      rw [if_neg (not_not_intro (Or.inr hsp1))] at hsub
      subst hsub
      exact hsp1
    show pyStrip (collapseWs _) = _
    rw [collapseWs, (collapseWsAux_allspace hs3).2]
    split
    · rfl
    · rfl

/-- C7 witness: a concrete whitespace-only input normalizes to empty. -/
theorem c7_normalize_text_idempotent_witness :
    normalize_text "  \t ".data = [] :=
  c7_normalize_text_idempotent.2 _ (by decide)

/-- C8 counterexample: the similarity scorer is not symmetric.  difflib's
greedy leftmost-longest-block recursion matches 2 characters of
`"ab"` into `"bacb"` (ratio `2/3`) but only 1 character in the swapped
direction (ratio `1/3`); at these lengths the autojunk heuristic is
inert, so the autojunk-faithful scorer shows the same values. -/
theorem c8_similarity_not_symmetric_counterexample :
    ratioAuto "ab".data "bacb".data ≠ ratioAuto "bacb".data "ab".data := by decide

/-- C8 (amended): the similarity scorer — with difflib's autojunk
heuristic modelled, `ratioAuto` — always returns a value in `[0, 1]`,
satisfies `similarity(x, x) = 1.0` for every `x` (including strings of
length ≥ 200: the popularity purge only constrains the DP phase of
`find_longest_match`, whose extension phase tests the empty junk set and
so extends the block over every pair of equal characters, recovering the
whole diagonal), and `similarity("", "")` is defined and equals `1`; it
is not symmetric in general (see the counterexample). -/
theorem c8_similarity_properties :
    (∀ a b : Str, 0 ≤ ratioAuto a b ∧ ratioAuto a b ≤ 1) ∧
    (∀ a : Str, ratioAuto a a = 1) ∧ ratioAuto [] [] = 1 :=
  ⟨fun a b => ⟨ratioAuto_nonneg a b, ratioAuto_le_one a b⟩, ratioAuto_self, rfl⟩

/-! ## Refresher claims -/

/-- C4: on any failed refresh tick the snapshot and its load timestamp are
left exactly as they were; the refresher sleeps
`min(60 * 2^failureCount, 1000)` seconds after incrementing the failure
count, resets the count on success, and three consecutive failures from a
healthy state produce the delays 120s, 240s, 480s. -/
theorem c4_refresher_backoff :
    (∀ (out : FetchOutcome) (now : Nat) (st : KBState),
      (load_knowledge_base out now st).1 = false → (load_knowledge_base out now st).2 = st) ∧
    refresherDelays 0 [false, false, false] = [120, 240, 480] ∧
    (∀ fc : Nat, (refresherStep fc false).1 = min (60 * 2 ^ (fc + 1)) 1000 ∧
      (refresherStep fc false).2 = fc + 1 ∧ (refresherStep fc true).2 = 0) := by
  refine ⟨?_, by decide, fun fc => ⟨rfl, rfl, rfl⟩⟩
  intro out now st h
  cases out with
  | ok entries => exact Bool.noConfusion h
  | timeout => rfl
  | netError => rfl
  | emptyBody => rfl
  | parseError => rfl

/-- C4 witness: a concrete timed-out tick leaves a concrete state
untouched. -/
theorem c4_refresher_backoff_witness :
    (load_knowledge_base .timeout 7 ⟨[], 3⟩).2 = ⟨[], 3⟩ :=
  c4_refresher_backoff.1 .timeout 7 ⟨[], 3⟩ rfl

/-! ## Resolver claims -/

/-- When the normalized question is empty and the raw scan missed,
`find_answer` returns absent immediately. -/
theorem find_answer_empty_norm (kb : List KBEntry) (db : FallbackDB)
    (g o anth : Option Str) (q : Str) (h1 : normalize_text q = [])
    (h2 : rawExactScan kb q = none) :
    find_answer kb db g o anth q = ⟨none, none, db⟩ := by
  rw [find_answer, h2]
  simp only [h1, if_pos]

/-- `find_answer` agrees with the declarative cascade: first the
Knowledge Store tiers, then the cache-and-providers tail. -/
theorem find_answer_eq_cascade (kb : List KBEntry) (db : FallbackDB)
    (g o anth : Option Str) (q : Str) (h : normalize_text q ≠ []) :
    find_answer kb db g o anth q =
      (match kbProduces kb q with
        | some r => ⟨some r, some "sheet", db⟩
        | none => cacheStep db g o anth q) := by
  rw [find_answer, kbProduces]
  cases hraw : rawExactScan kb q with
  | some r => rfl
  | none =>
    simp only [if_neg h]
    cases hscan : fuzzyScan (normalize_text q) kb 0 none with
    | hit r => rfl
    | done best bm =>
      cases bm with
      | none => rfl
      | some m =>
        by_cases hth : SIMILARITY_THRESHOLD ≤ best
        · simp only [if_pos hth]
        · simp only [if_neg hth]

/-- C10: an input whose normalized form is empty and which has no raw
exact match is answered absent immediately after the exact scan: the
result does not depend on the cache, on any provider, and the cache state
passes through unchanged (nothing is written). -/
theorem c10_empty_normalized_short_circuits :
    ∀ (kb : List KBEntry) (db : FallbackDB) (g o anth : Option Str) (q : Str),
      normalize_text q = [] → rawExactScan kb q = none →
      find_answer kb db g o anth q = ⟨none, none, db⟩ :=
  fun kb db g o anth q h1 h2 => find_answer_empty_norm kb db g o anth q h1 h2

/-- C10 witness: a punctuation-only question, with a populated snapshot,
cache and providers, resolves to absent with the cache unchanged. -/
theorem c10_empty_normalized_short_circuits_witness :
    find_answer [⟨"What is DHV?".data, "A community.".data, [], [], []⟩]
      (some [⟨"hello".data, "hello".data, "cached".data⟩])
      (some "g".data) (some "o".data) (some "a".data) "?!?".data =
      ⟨none, none, some [⟨"hello".data, "hello".data, "cached".data⟩]⟩ :=
  c10_empty_normalized_short_circuits _ _ _ _ _ _ (by decide) (by decide)

/-- C6: when the Knowledge Store tiers produce nothing, the Fallback
Cache lookup returns absent and all three providers return absent,
`find_answer` returns `(None, None)` with the store unchanged; and a
store-level failure (`db = none`) is indistinguishable from a cache miss.
`find_answer` itself is a total function, mirroring the source's
catch-all that converts any internal error into `(None, None)`. -/
theorem c6_total_miss_absent :
    (∀ (kb : List KBEntry) (db : FallbackDB) (q : Str),
      kbProduces kb q = none → get_local_fallback db q = none →
      find_answer kb db none none none q = ⟨none, none, db⟩) ∧
    (∀ q : Str, get_local_fallback none q = none) := by
  have hstore : ∀ q : Str, get_local_fallback none q = none := by
    intro q
    rw [get_local_fallback]
    split
    · rfl
    · rfl
  refine ⟨?_, hstore⟩
  intro kb db q hkb hcache
  have hraw : rawExactScan kb q = none := by
    rw [kbProduces] at hkb
    cases hr : rawExactScan kb q with
    | some r => rw [hr] at hkb; cases hkb
    | none => rfl
  by_cases hnq : normalize_text q = []
  · exact find_answer_empty_norm kb db none none none q hnq hraw
  · rw [find_answer_eq_cascade kb db none none none q hnq, hkb, cacheStep, hcache]
    rfl

/-- C6 witness: empty snapshot, empty cache table, all providers absent,
on a concrete question. -/
theorem c6_total_miss_absent_witness :
    find_answer [] (some []) none none none "hello".data = ⟨none, none, some []⟩ :=
  c6_total_miss_absent.1 [] (some []) "hello".data (by decide) (by decide)

/-- C1: the resolver tries its tiers in fixed order with short-circuit:
a Knowledge Store result (raw exact or fuzzy) is returned as tier
`"sheet"` regardless of the cache or providers; on a Knowledge Store
miss it proceeds to the cache lookup; a truthy cache answer is returned
as tier `"local"`; a cache miss (or empty cached answer) proceeds to the
provider cascade in the fixed order groq, openai, anthropic; a provider
answer short-circuits the rest of the cascade.  In particular, whenever
both the Knowledge Store and the Fallback Cache would match, the result
is the Knowledge Store's answer with the `"sheet"` tier. -/
theorem c1_resolver_tier_order :
    ∀ (kb : List KBEntry) (db : FallbackDB) (g o anth : Option Str) (q : Str),
      (∀ r, kbProduces kb q = some r →
        find_answer kb db g o anth q = ⟨some r, some "sheet", db⟩) ∧
      (kbProduces kb q = none → normalize_text q ≠ [] →
        find_answer kb db g o anth q = cacheStep db g o anth q) ∧
      (∀ a, get_local_fallback db q = some a → a ≠ [] →
        cacheStep db g o anth q = ⟨some a, some "local", db⟩) ∧
      ((get_local_fallback db q = none ∨ get_local_fallback db q = some []) →
        cacheStep db g o anth q =
          providerCascade db q [(g, "groq"), (o, "openai"), (anth, "anthropic")]) ∧
      (∀ a, g = some a → a ≠ [] →
        providerCascade db q [(g, "groq"), (o, "openai"), (anth, "anthropic")] =
          ⟨some a, some "groq", save_to_local_fallback db q a⟩) := by
  intro kb db g o anth q
  refine ⟨?_, ?_, ?_, ?_, ?_⟩
  · intro r hr
    by_cases hnq : normalize_text q = []
    · rw [kbProduces] at hr
      cases hraw : rawExactScan kb q with
      | some r0 =>
        rw [hraw] at hr
        cases hr
        rw [find_answer, hraw]
      | none =>
        rw [hraw, if_pos hnq] at hr
        cases hr
    · rw [find_answer_eq_cascade kb db g o anth q hnq, hr]
  · intro hkb hnq
    rw [find_answer_eq_cascade kb db g o anth q hnq, hkb]
  · intro a ha hne
    rw [cacheStep, ha]
    dsimp only
    rw [if_neg hne]
  · rintro (ha | ha)
    · rw [cacheStep, ha]
    · rw [cacheStep, ha]
      dsimp only
      rw [if_pos rfl]
  · intro a ha hne
    subst ha
    rw [providerCascade]
    simp only [if_neg hne]

/-- C1 witness: with a snapshot entry raw-exact-matching the question and
a cache record that would also match it, the resolver returns the
Knowledge Store's answer with tier `"sheet"`, leaving the store alone;
the second conjunct exhibits that the Fallback Cache would indeed have
produced a (different) answer. -/
theorem c1_resolver_tier_order_witness :
    find_answer [⟨"What is DHV?".data, "A community.".data, [], [], []⟩]
      (some [⟨"what is dhv?".data, "what is dhv".data, "CACHED".data⟩])
      (some "g".data) (some "o".data) (some "a".data) "what is dhv?".data =
      ⟨some "A community.".data, some "sheet",
        some [⟨"what is dhv?".data, "what is dhv".data, "CACHED".data⟩]⟩ ∧
    get_local_fallback (some [⟨"what is dhv?".data, "what is dhv".data, "CACHED".data⟩])
      "what is dhv?".data = some "CACHED".data :=
  ⟨(c1_resolver_tier_order _ _ _ _ _ _).1 "A community.".data (by decide), by decide⟩

/-- The step-2 scan returns the first entry related to the query by
normalized equality or substring containment — immediately, regardless
of any similarity scores — provided no earlier entry is so related. -/
theorem fuzzyScan_hit (nq : Str) :
    ∀ (pre : List KBEntry) (e : KBEntry) (post : List KBEntry) (bs : ℚ) (bm : Option KBEntry),
      (∀ e2 ∈ pre, normalize_text e2.Question = [] ∨
        (nq ≠ normalize_text e2.Question ∧
         ¬ normalize_text e2.Question <:+: nq ∧ ¬ nq <:+: normalize_text e2.Question)) →
      normalize_text e.Question ≠ [] →
      (nq = normalize_text e.Question ∨
       normalize_text e.Question <:+: nq ∨ nq <:+: normalize_text e.Question) →
      fuzzyScan nq (pre ++ e :: post) bs bm = .hit e.Response := by
  intro pre
  induction pre with
  | nil =>
    intro e post bs bm _ he htrig
    rw [List.nil_append]
    simp only [fuzzyScan]
    rw [if_neg he]
    by_cases heq : nq = normalize_text e.Question
    · rw [if_pos heq]
    · rw [if_neg heq]
      rcases htrig with h | h
      · exact absurd h heq
      · rw [if_pos h]
  | cons e2 pre ih =>
    intro e post bs bm hpre he htrig
    have hrest := fun x hx => hpre x (List.mem_cons_of_mem _ hx)
    rw [List.cons_append]
    simp only [fuzzyScan]
    by_cases hz : normalize_text e2.Question = []
    · rw [if_pos hz]
      exact ih e post bs bm hrest he htrig
    · rw [if_neg hz]
      rcases hpre e2 (List.mem_cons_self _ _) with h2 | ⟨hne, hi1, hi2⟩
      · exact absurd h2 hz
      · rw [if_neg hne, if_neg (not_or.mpr ⟨hi1, hi2⟩)]
        split
        · exact ih e post _ _ hrest he htrig
        · exact ih e post _ _ hrest he htrig

/-- C5: any Knowledge Store entry whose normalized question equals the
normalized query or is related to it by substring containment (either
direction) is returned immediately with the exact tier (`"sheet"`), not
via the fuzzy threshold — the result holds whatever the similarity
scores are, and whatever entries follow. -/
theorem c5_containment_is_exact :
    ∀ (pre post : List KBEntry) (e : KBEntry) (db : FallbackDB)
      (g o anth : Option Str) (q : Str),
      rawExactScan (pre ++ e :: post) q = none →
      normalize_text q ≠ [] →
      (∀ e2 ∈ pre, normalize_text e2.Question = [] ∨
        (normalize_text q ≠ normalize_text e2.Question ∧
         ¬ normalize_text e2.Question <:+: normalize_text q ∧
         ¬ normalize_text q <:+: normalize_text e2.Question)) →
      normalize_text e.Question ≠ [] →
      (normalize_text q = normalize_text e.Question ∨
       normalize_text e.Question <:+: normalize_text q ∨
       normalize_text q <:+: normalize_text e.Question) →
      find_answer (pre ++ e :: post) db g o anth q =
        ⟨some e.Response, some "sheet", db⟩ := by
  intro pre post e db g o anth q hraw hnq hpre he htrig
  rw [find_answer, hraw]
  simp only [if_neg hnq]
  rw [fuzzyScan_hit (normalize_text q) pre e post 0 none hpre he htrig]

/-- C5 witness: the spec scenario — an entry `"pricing plans"` matches
the query `"what are the pricing plans"` by containment and is reported
with the exact tier. -/
theorem c5_containment_is_exact_witness :
    find_answer [⟨"pricing plans".data, "See pricing.com".data, [], [], []⟩]
      (some []) none none none "what are the pricing plans".data =
      ⟨some "See pricing.com".data, some "sheet", some []⟩ :=
  c5_containment_is_exact [] [] _ (some []) none none none _
    (by decide) (by decide) (by decide) (by decide) (by decide)

/-! ## Threshold boundary instances for C2 -/

/-- A concrete pair scoring exactly `0.85`: seventeen matched characters
out of `17 + 23 = 40`. -/
theorem ratio_boundary_pair :
    ratio "aaaaaaaaaaaaaaaaa".data "aaaaaaaaaaaaaaaaauvwxyz".data = SIMILARITY_THRESHOLD := by
  rw [ratio, if_neg (by decide)]
  rw [show "aaaaaaaaaaaaaaaaauvwxyz".data = "aaaaaaaaaaaaaaaaa".data ++ "uvwxyz".data from rfl]
  rw [totalMatch_self_append]
  decide

/-- A concrete non-containment pair scoring exactly `0.85`: a common
17-character prefix of two 20-character strings with disjoint tails. -/
theorem totalMatch_c2kb :
    totalMatch "abcdefghijklmnopqxyz".data "abcdefghijklmnopquvw".data = 17 := by
  have hflm : flm "abcdefghijklmnopqxyz".data "abcdefghijklmnopquvw".data = (0, 0, 17) := by
    refine flm_eq_head _ _ 17 (by omega) (by decide) ?_
    intro p hp
    obtain ⟨i, j⟩ := p
    obtain ⟨hi, hj⟩ := mem_idxPairs.mp hp
    have hi2 : i < ("abcdefghijklmnopqxyz".data).length := hi
    have hj2 : j < ("abcdefghijklmnopquvw".data).length := hj
    have hlena : ("abcdefghijklmnopqxyz".data).length = 20 := by decide
    have hlenb : ("abcdefghijklmnopquvw".data).length = 20 := by decide
    rw [hlena] at hi2
    rw [hlenb] at hj2
    show cpl ("abcdefghijklmnopqxyz".data.drop i)
      ("abcdefghijklmnopquvw".data.drop j) ≤ 17
    by_cases hc1 : 3 ≤ i
    · have hb := cpl_le_left ("abcdefghijklmnopqxyz".data.drop i)
        ("abcdefghijklmnopquvw".data.drop j)
      rw [List.length_drop, hlena] at hb
      omega
    · by_cases hc2 : 3 ≤ j
      · have hb := cpl_le_right ("abcdefghijklmnopqxyz".data.drop i)
          ("abcdefghijklmnopquvw".data.drop j)
        rw [List.length_drop, hlenb] at hb
        omega
      · have hi3 : i < 3 := by omega
        have hj3 : j < 3 := by omega
        interval_cases i <;> interval_cases j <;> decide
  rw [totalMatch, show "abcdefghijklmnopqxyz".data.length = 19 + 1 from by decide, tmF]
  rw [hflm]
  simp only [List.take_zero]
  rw [if_neg (by omega)]
  rw [show (0 + 17 : Nat) = 17 from rfl]
  rw [show "abcdefghijklmnopqxyz".data.drop 17 = "xyz".data from by decide]
  rw [show "abcdefghijklmnopquvw".data.drop 17 = "uvw".data from by decide]
  rw [tmF_nil_left]
  have hd : tmF 19 "xyz".data "uvw".data = 0 := by decide
  rw [hd]

theorem ratio_c2kb :
    ratio "abcdefghijklmnopqxyz".data "abcdefghijklmnopquvw".data = SIMILARITY_THRESHOLD := by
  rw [ratio, if_neg (by decide), totalMatch_c2kb]
  decide

/-- C2 counterexample: a pair whose similarity is exactly the threshold
`0.85` is rejected by `is_similar`, because `is_similar` compares with
strict `>` — refuting the claim that every fuzzy call site accepts with
`>=`. -/
theorem c2_is_similar_strict_counterexample :
    is_similar "aaaaaaaaaaaaaaaaa".data "aaaaaaaaaaaaaaaaauvwxyz".data = false ∧
    ratio "aaaaaaaaaaaaaaaaa".data "aaaaaaaaaaaaaaaaauvwxyz".data = SIMILARITY_THRESHOLD := by
  refine ⟨?_, ratio_boundary_pair⟩
  rw [is_similar]
  rw [show lowerStr "aaaaaaaaaaaaaaaaa".data = "aaaaaaaaaaaaaaaaa".data from by decide]
  rw [show lowerStr "aaaaaaaaaaaaaaaaauvwxyz".data = "aaaaaaaaaaaaaaaaauvwxyz".data
    from by decide]
  rw [ratio_boundary_pair]
  exact decide_eq_false (lt_irrefl _)

/-- C2 (amended): a best similarity score equal to
`SIMILARITY_THRESHOLD` counts as a match at the knowledge-base fuzzy
lookup and at the fallback-cache fuzzy lookup (both accept with `>=`),
but not in the `is_similar` helper, which uses strict `>`. -/
theorem c2_threshold_boundary :
    (∀ a b : Str, ratio (lowerStr a) (lowerStr b) = SIMILARITY_THRESHOLD →
      is_similar a b = false) ∧
    (∀ (r : CacheRecord) (q : Str), normalize_text q ≠ [] →
      r.normalized_question ≠ normalize_text q →
      ratio (normalize_text q) r.normalized_question = SIMILARITY_THRESHOLD →
      get_local_fallback (some [r]) q = some r.answer) ∧
    (∀ (e : KBEntry) (db : FallbackDB) (g o anth : Option Str) (q : Str),
      rawExactScan [e] q = none → normalize_text q ≠ [] →
      normalize_text e.Question ≠ [] →
      normalize_text q ≠ normalize_text e.Question →
      ¬ normalize_text e.Question <:+: normalize_text q →
      ¬ normalize_text q <:+: normalize_text e.Question →
      ratio (normalize_text q) (normalize_text e.Question) = SIMILARITY_THRESHOLD →
      find_answer [e] db g o anth q = ⟨some e.Response, some "sheet", db⟩) := by
  refine ⟨?_, ?_, ?_⟩
  · intro a b h
    rw [is_similar, h]
    exact decide_eq_false (lt_irrefl _)
  · intro r q hnq hne h
    simp only [get_local_fallback]
    rw [if_neg hnq]
    have hfind : List.find? (fun r2 => decide (r2.normalized_question = normalize_text q))
        [r] = none := by
      rw [List.find?_cons_of_neg _ (by simpa using hne), List.find?_nil]
    rw [hfind]
    simp only [List.foldl_cons, List.foldl_nil]
    rw [h]
    rw [if_pos (show ((0 : ℚ), (none : Option Str)).1 < SIMILARITY_THRESHOLD from by decide)]
    rw [if_pos (le_refl SIMILARITY_THRESHOLD)]
  · intro e db g o anth q hraw hnq he hne hi1 hi2 h
    rw [find_answer, hraw]
    simp only [if_neg hnq]
    have hscan : fuzzyScan (normalize_text q) [e] 0 none =
        .done SIMILARITY_THRESHOLD (some e) := by
      simp only [fuzzyScan]
      rw [if_neg he, if_neg hne, if_neg (not_or.mpr ⟨hi1, hi2⟩), h]
      rw [if_pos (show (0 : ℚ) < SIMILARITY_THRESHOLD from by decide)]
    rw [hscan]
    simp only [if_pos (le_refl SIMILARITY_THRESHOLD)]

/-- C2 witness: the boundary behaviour at concrete score-0.85 pairs —
accepted by the cache fuzzy lookup and by the knowledge-base fuzzy
lookup, rejected by `is_similar`. -/
theorem c2_threshold_boundary_witness :
    is_similar "aaaaaaaaaaaaaaaaa".data "aaaaaaaaaaaaaaaaauvwxyz".data = false ∧
    get_local_fallback
      (some [⟨"q0".data, "aaaaaaaaaaaaaaaaauvwxyz".data, "CACHED ANSWER".data⟩])
      "aaaaaaaaaaaaaaaaa".data = some "CACHED ANSWER".data ∧
    find_answer [⟨"abcdefghijklmnopquvw".data, "KB ANSWER".data, [], [], []⟩]
      (some []) none none none "abcdefghijklmnopqxyz".data =
      ⟨some "KB ANSWER".data, some "sheet", some []⟩ := by
  refine ⟨?_, ?_, ?_⟩
  · exact c2_threshold_boundary.1 _ _ (by
      rw [show lowerStr "aaaaaaaaaaaaaaaaa".data = "aaaaaaaaaaaaaaaaa".data from by decide]
      rw [show lowerStr "aaaaaaaaaaaaaaaaauvwxyz".data = "aaaaaaaaaaaaaaaaauvwxyz".data
        from by decide]
      exact ratio_boundary_pair)
  · exact c2_threshold_boundary.2.1 _ _ (by decide) (by decide) (by
      rw [show normalize_text "aaaaaaaaaaaaaaaaa".data = "aaaaaaaaaaaaaaaaa".data
        from by decide]
      exact ratio_boundary_pair)
  · exact c2_threshold_boundary.2.2 _ _ _ _ _ _ (by decide) (by decide) (by decide)
      (by decide) (by decide) (by decide) (by
      rw [show normalize_text "abcdefghijklmnopqxyz".data = "abcdefghijklmnopqxyz".data
        from by decide]
      rw [show normalize_text "abcdefghijklmnopquvw".data = "abcdefghijklmnopquvw".data
        from by decide]
      exact ratio_c2kb)

/-! ## Fallback-cache claims (C3) -/

/-- C3 counterexample: two puts whose raw questions differ but normalize
identically do not overwrite — both records persist, and a get on the
shared normalized key returns the FIRST record's answer `"A"`, not the
last-written `"B"` (the table's uniqueness constraint is on the raw
`question` column, not on `normalized_question`). -/
theorem c3_last_write_wins_counterexample :
    get_local_fallback
      (save_to_local_fallback
        (save_to_local_fallback (some []) "hello?".data "A".data)
        "hello!".data "B".data) "hello".data = some "A".data ∧
    get_local_fallback
      (save_to_local_fallback
        (save_to_local_fallback (some []) "hello?".data "A".data)
        "hello!".data "B".data) "hello".data ≠ some "B".data ∧
    normalize_text "hello?".data = normalize_text "hello!".data ∧
    normalize_text "hello?".data ≠ [] := by
  refine ⟨by decide, by decide, by decide, by decide⟩

/-- C3 (amended): the cache's overwrite key is the raw `question`
string, not the normalized question.  `put(q, a1); put(q, a2)` with the
identical raw `q` overwrites, and a get with any question normalizing to
that key returns `a2` (round trip included as the single-put part) —
provided no other surviving record already carries that normalized key.
With distinct raw questions sharing a normalized form, records
accumulate instead (see the counterexample). -/
theorem c3_cache_overwrite_raw_key :
    (∀ (rows : List CacheRecord) (q q2 a : Str),
      normalize_text q ≠ [] → a ≠ [] → normalize_text q2 = normalize_text q →
      (∀ r ∈ rows, r.question ≠ q → r.normalized_question ≠ normalize_text q) →
      get_local_fallback (save_to_local_fallback (some rows) q a) q2 = some a) ∧
    (∀ (rows : List CacheRecord) (q q2 a1 a2 : Str),
      normalize_text q ≠ [] → a1 ≠ [] → a2 ≠ [] → normalize_text q2 = normalize_text q →
      (∀ r ∈ rows, r.question ≠ q → r.normalized_question ≠ normalize_text q) →
      get_local_fallback
        (save_to_local_fallback (save_to_local_fallback (some rows) q a1) q a2) q2 =
        some a2) := by
  have part1 : ∀ (rows : List CacheRecord) (q q2 a : Str),
      normalize_text q ≠ [] → a ≠ [] → normalize_text q2 = normalize_text q →
      (∀ r ∈ rows, r.question ≠ q → r.normalized_question ≠ normalize_text q) →
      get_local_fallback (save_to_local_fallback (some rows) q a) q2 = some a := by
    intro rows q q2 a hnq ha hq2 hrows
    simp only [save_to_local_fallback]
    rw [if_neg (not_or.mpr ⟨hnq, ha⟩)]
    simp only [get_local_fallback]
    rw [hq2, if_neg hnq]
    have hfind : List.find? (fun r2 => decide (r2.normalized_question = normalize_text q))
        (rows.filter (fun r => decide (r.question ≠ q)) ++ [⟨q, normalize_text q, a⟩]) =
        some ⟨q, normalize_text q, a⟩ := by
      rw [List.find?_append, List.find?_eq_none.mpr ?_, Option.none_or]
      · simp [List.find?]
      · intro x hx
        have hxq : x.question ≠ q := by simpa using List.of_mem_filter hx
        simpa using hrows x (List.mem_of_mem_filter hx) hxq
    rw [hfind]
  refine ⟨part1, ?_⟩
  intro rows q q2 a1 a2 hnq ha1 ha2 hq2 hrows
  have step1 : save_to_local_fallback (some rows) q a1 =
      some (rows.filter (fun r => decide (r.question ≠ q)) ++
        [⟨q, normalize_text q, a1⟩]) := by
    simp only [save_to_local_fallback]
    rw [if_neg (not_or.mpr ⟨hnq, ha1⟩)]
  rw [step1]
  refine part1 _ q q2 a2 hnq ha2 hq2 ?_
  intro x hx hxq
  rcases List.mem_append.mp hx with hx1 | hx2
  · exact hrows x (List.mem_of_mem_filter hx1) hxq
  · rw [List.mem_singleton] at hx2
    subst hx2
    exact absurd rfl hxq

/-- C3 witness: two puts with the identical raw question, read back with
a differently-capitalized question normalizing to the same key. -/
theorem c3_cache_overwrite_raw_key_witness :
    get_local_fallback
      (save_to_local_fallback
        (save_to_local_fallback (some []) "hello?".data "A".data)
        "hello?".data "B".data) "Hello!".data = some "B".data :=
  c3_cache_overwrite_raw_key.2 [] "hello?".data "Hello!".data "A".data "B".data
    (by decide) (by decide) (by decide) (by decide) (by decide)
